import Mathlib

/-!
Verification of the schema-to-model generator (`generator.go`).

Shallow embedding of the pure parts of the generator: the naming normalizer
(`convert`, `tagFieldConvert`), the type mapper (`typeConvert`), the field
normalisation loop (`generateTagFields`), the bundle-building loop of
`generate`, the configuration setters, and the promotion step (`moveDir`,
`getFileAndDirList`).

Conventions of the embedding.

* A Go `string` is a Lean `String`.  Lean strings are sequences of Unicode scalar
  values, so the embedding covers the valid UTF-8 strings.
* A Go `panic` is `Except.error` carrying the panic message.
* Records reached through pointers that are written after they were shared
  (the `TableInfo` records of `generate`) live in an explicit list and are
  referred to by position; the `Field` records, which are written only before
  they are shared, are passed as values, one record per column.
* The Go standard library functions that the generator calls (`strings.Split`,
  `strings.Title`, `strings.ToLower`, `strings.ToUpper`, `filepath.Clean`,
  `filepath.Join`, `filepath.Base`, `filepath.ToSlash`) are transcribed from the
  library.  Their behaviour on ASCII is written out; the Unicode case and
  category tables used for characters above U+007F are a parameter
  (`UnicodeTables`).  The `filepath` functions are the ones of a target whose
  path separator is `/`.
-/

namespace Generator

/-! ## Go library: `unicode` and `strings` -/

/-- The Unicode tables consulted by Go's `unicode` package for characters above
`MaxASCII`: the three case mappings and the three category predicates used by
`strings.Title`, `strings.ToLower` and `strings.ToUpper`. -/
structure UnicodeTables where
  toUpper : Char → Char
  toLower : Char → Char
  toTitle : Char → Char
  isLetter : Char → Bool
  isDigit : Char → Bool
  isSpace : Char → Bool

/-- Tables that map every character to itself and classify no character.  On
ASCII input the tables are never consulted, so every table gives the same
result there; this one is used to evaluate the functions on ASCII examples. -/
def UnicodeTables.identity : UnicodeTables where
  toUpper := fun c => c
  toLower := fun c => c
  toTitle := fun c => c
  isLetter := fun _ => false
  isDigit := fun _ => false
  isSpace := fun _ => false

/-- Go `unicode.MaxASCII`. -/
def MaxASCII : Nat := 0x7F

/-- Go `unicode.ToUpper`: ASCII letters are shifted by `'a' - 'A'`, other ASCII
characters are returned unchanged, the rest is looked up in the tables. -/
def unicodeToUpper (U : UnicodeTables) (r : Char) : Char :=
  if r.toNat ≤ MaxASCII then
    if 'a'.toNat ≤ r.toNat ∧ r.toNat ≤ 'z'.toNat then Char.ofNat (r.toNat - ('a'.toNat - 'A'.toNat))
    else r
  else U.toUpper r

/-- Go `unicode.ToLower`. -/
def unicodeToLower (U : UnicodeTables) (r : Char) : Char :=
  if r.toNat ≤ MaxASCII then
    if 'A'.toNat ≤ r.toNat ∧ r.toNat ≤ 'Z'.toNat then Char.ofNat (r.toNat + ('a'.toNat - 'A'.toNat))
    else r
  else U.toLower r

/-- Go `unicode.ToTitle`: title case is upper case for ASCII. -/
def unicodeToTitle (U : UnicodeTables) (r : Char) : Char :=
  if r.toNat ≤ MaxASCII then
    if 'a'.toNat ≤ r.toNat ∧ r.toNat ≤ 'z'.toNat then Char.ofNat (r.toNat - ('a'.toNat - 'A'.toNat))
    else r
  else U.toTitle r

/-- Go `strings.isSeparator`: ASCII alphanumerics and underscore are not
separators, every other ASCII character is; above ASCII, letters and digits are
not separators and otherwise only spaces are. -/
def isSeparator (U : UnicodeTables) (r : Char) : Bool :=
  if r.toNat ≤ 0x7F then
    if '0'.toNat ≤ r.toNat ∧ r.toNat ≤ '9'.toNat then false
    else if 'a'.toNat ≤ r.toNat ∧ r.toNat ≤ 'z'.toNat then false
    else if 'A'.toNat ≤ r.toNat ∧ r.toNat ≤ 'Z'.toNat then false
    else if r = '_' then false
    else true
  else if U.isLetter r || U.isDigit r then false
  else U.isSpace r

/-- Go `strings.ToUpper`, which is `Map(unicode.ToUpper, s)`. -/
def stringsToUpper (U : UnicodeTables) (s : String) : String :=
  ⟨s.data.map (unicodeToUpper U)⟩

/-- Go `strings.ToLower`, which is `Map(unicode.ToLower, s)`. -/
def stringsToLower (U : UnicodeTables) (s : String) : String :=
  ⟨s.data.map (unicodeToLower U)⟩

/-- The closure that `strings.Title` hands to `Map`, with its captured variable
`prev` made explicit: a character is title-cased when the previous character is
a separator. -/
def titleMap (U : UnicodeTables) : Char → List Char → List Char
  | _, [] => []
  | prev, r :: rs =>
    (if isSeparator U prev then unicodeToTitle U r else r) :: titleMap U r rs

/-- Go `strings.Title`; `prev` starts as a space. -/
def stringsTitle (U : UnicodeTables) (s : String) : String :=
  ⟨titleMap U ' ' s.data⟩

/-- First segment and remaining segments of a character sequence cut at every
occurrence of `sep`. -/
def splitCore (sep : Char) : List Char → List Char × List (List Char)
  | [] => ([], [])
  | c :: cs =>
    let r := splitCore sep cs
    if c = sep then ([], r.1 :: r.2) else (c :: r.1, r.2)

/-- Go `strings.Split(s, sep)` for a separator of one character: the segments of
`s` between the occurrences of `sep`, in order; the empty string gives one empty
segment. -/
def stringsSplit (s : String) (sep : Char) : List String :=
  let r := splitCore sep s.data
  String.mk r.1 :: r.2.map String.mk

/-! ## The naming normalizer -/

/-- Go `convert`: the three spellings `id`, `iD`, `Id` are upper-cased; every
other input is split at underscores and the title-cased segments are written to
a buffer one after the other. -/
def convert (U : UnicodeTables) (input : String) : String :=
  if input = "id" ∨ input = "iD" ∨ input = "Id" then stringsToUpper U input
  else (stringsSplit input '_').foldl (fun buff sp => buff ++ stringsTitle U sp) ""

/-- Go `tagFieldConvert`.  The access `splits[0]` panics on an empty slice, which
is kept as an error result. -/
def tagFieldConvert (U : UnicodeTables) (field : String) : Except String String :=
  match stringsSplit field '_' with
  | [] => .error "runtime error: index out of range [0] with length 0"
  | s0 :: rest =>
    .ok (rest.foldl (fun buff sp => buff ++ stringsTitle U sp) ("" ++ stringsToLower U s0))

/-! ## The type mapper -/

/-- Go `typeConvert`: a `switch` over the database type name; the `default`
branch panics with the type name followed by `" not convert"`. -/
def typeConvert (dataType : String) : Except String String :=
  if dataType = "varchar" ∨ dataType = "longtext" ∨ dataType = "char" ∨ dataType = "text" then
    .ok "string"
  else if dataType = "datetime" ∨ dataType = "date" ∨ dataType = "time" then
    .ok "time.Time"
  else if dataType = "tinyint" then
    .ok "bool"
  else if dataType = "int" ∨ dataType = "timestamp" ∨ dataType = "integer" then
    .ok "int"
  else if dataType = "bigint" then
    .ok "int64"
  else if dataType = "blob" ∨ dataType = "varbinary" then
    .ok "[]byte"
  else if dataType = "float" then
    .ok "float32"
  else if dataType = "double" then
    .ok "float64"
  else
    .error (dataType ++ " not convert")

/-- The database type names of the spec's type table. -/
def documentedTypes : List String :=
  ["varchar", "longtext", "char", "text", "datetime", "date", "time", "tinyint",
   "int", "timestamp", "integer", "bigint", "blob", "varbinary", "float", "double"]

/-- The target types named in the spec's type table; the integer and float types
carry their width in bits. -/
inductive TargetType where
  | string
  | timestamp
  | boolean
  | signedInt (bits : Nat)
  | byteSequence
  | float (bits : Nat)
  deriving DecidableEq, Repr

/-- The type table in the words of the spec (section 4.2). -/
def specTypeTable (dbType : String) : Option TargetType :=
  if dbType ∈ ["varchar", "longtext", "char", "text"] then some .string
  else if dbType ∈ ["datetime", "date", "time"] then some .timestamp
  else if dbType ∈ ["tinyint"] then some .boolean
  else if dbType ∈ ["int", "timestamp", "integer"] then some (.signedInt 32)
  else if dbType ∈ ["bigint"] then some (.signedInt 64)
  else if dbType ∈ ["blob", "varbinary"] then some .byteSequence
  else if dbType ∈ ["float"] then some (.float 32)
  else if dbType ∈ ["double"] then some (.float 64)
  else none

/-- The Go types denoted by the type names that `typeConvert` writes into the
generated source.  Per the Go language specification `int32` and `int64` have a
fixed width while `int` has the width of the compilation target, 32 or 64 bits;
`intBits` is that width. -/
def goType (intBits : Nat) (name : String) : Option TargetType :=
  if name = "string" then some .string
  else if name = "time.Time" then some .timestamp
  else if name = "bool" then some .boolean
  else if name = "int" then some (.signedInt intBits)
  else if name = "int32" then some (.signedInt 32)
  else if name = "int64" then some (.signedInt 64)
  else if name = "[]byte" then some .byteSequence
  else if name = "float32" then some (.float 32)
  else if name = "float64" then some (.float 64)
  else none

/-! ## Spec-level descriptions of the naming rules -/

/-- A string is a case variant of `id`: lower-casing its ASCII letters gives
`id`. -/
def caseVariantOfId (s : String) : Prop :=
  s.data.map Char.toLower = ['i', 'd']

instance (s : String) : Decidable (caseVariantOfId s) := by
  unfold caseVariantOfId; infer_instance

/-- A segment with only its first character upper-cased and the rest unchanged
(the spec's "first letter upcased"). -/
def capitalizeFirst (U : UnicodeTables) (seg : String) : String :=
  match seg.data with
  | [] => ""
  | c :: cs => ⟨unicodeToTitle U c :: cs⟩

/-- A segment in which the first character and every character that directly
follows a separator character are title-cased, the rest unchanged. -/
def titleWords (U : UnicodeTables) (seg : String) : String :=
  ⟨List.zipWith (fun prev c => if isSeparator U prev then unicodeToTitle U c else c)
    (' ' :: seg.data) seg.data⟩

/-- The spec's `normalizeIdentifier` away from `id`: the underscore-delimited
segments, each with its first letter upper-cased, concatenated in order. -/
def specNormalizeIdentifier (U : UnicodeTables) (s : String) : String :=
  String.join ((stringsSplit s '_').map (capitalizeFirst U))

/-- The spec's `normalizeTagName`: first segment lower-cased, later segments
with their first letter capitalised, concatenated in order. -/
def specNormalizeTagName (U : UnicodeTables) (s : String) : String :=
  match stringsSplit s '_' with
  | [] => ""
  | s0 :: rest => stringsToLower U s0 ++ String.join (rest.map (capitalizeFirst U))

/-! ## Fields and the field normalisation loop -/

/-- Go `Field`: one column of a table (`Type_` is the Go field `Type`). -/
structure Field where
  Name : String
  Desc : String
  Type_ : String
  IsNull : String
  ColumnType : String
  Length : Int
  deriving DecidableEq, Repr

/-- The `for` loop of `generateTagFields`: `tagFields` and `done` are the tag
names appended and the fields already overwritten; a panic of `typeConvert`
ends the loop with its message. -/
def generateTagFieldsLoop (U : UnicodeTables) :
    List Field → List String → List Field → Except String (List String × List Field)
  | [], tagFields, done => .ok (tagFields, done)
  | field :: rest, tagFields, done => do
    let tagField ← tagFieldConvert U field.Name
    let tagFields := tagFields ++ [tagField]
    let field := { field with Name := convert U field.Name }
    let ty ← typeConvert field.Type_
    let field := { field with Type_ := ty }
    generateTagFieldsLoop U rest tagFields (done ++ [field])

/-- Go `generateTagFields`: returns the tag names together with the fields as
they are after the in-place update. -/
def generateTagFields (U : UnicodeTables) (fields : List Field) :
    Except String (List String × List Field) :=
  generateTagFieldsLoop U fields [] []

/-! ## Go library: `path/filepath` for the separator `/` -/

/-- Go `filepath.Separator`. -/
def Separator : Char := '/'

/-- Go `os.IsPathSeparator`. -/
def isPathSeparator (c : Char) : Bool :=
  decide (c = Separator)

/-- The output buffer of `filepath.Clean`, read as path elements: `dotdot`
counts the leading `..` elements that cannot be removed (the prefix that ends at
the index `dotdot` of the Go code) and `elems` holds the real elements written
after them, the last one first. -/
structure CleanBuf where
  dotdot : Nat
  elems : List (List Char)
  deriving DecidableEq, Repr

/-- One round of the loop of `filepath.Clean`, for the path element `elem`: an
empty element and `.` are skipped; `..` removes the last real element when there
is one, is appended when the path is not rooted, and is dropped at the root; any
other element is appended. -/
def cleanStep (rooted : Bool) (out : CleanBuf) (elem : List Char) : CleanBuf :=
  if elem = [] then out
  else if elem = ['.'] then out
  else if elem = ['.', '.'] then
    match out.elems with
    | _ :: rest => { out with elems := rest }
    | [] => if rooted then out else { out with dotdot := out.dotdot + 1 }
  else { out with elems := elem :: out.elems }

/-- Path elements joined by the separator. -/
def joinElems : List (List Char) → List Char
  | [] => []
  | [e] => e
  | e :: es => e ++ Separator :: joinElems es

/-- The characters `filepath.Clean` returns, before the empty result is turned
into `.`. -/
def cleanChars (path : List Char) : List Char :=
  let rooted := path.head? = some Separator
  let s := splitCore Separator path
  let out := (s.1 :: s.2).foldl (cleanStep rooted) ⟨0, []⟩
  (if rooted then [Separator] else [])
    ++ joinElems (List.replicate out.dotdot ['.', '.'] ++ out.elems.reverse)

/-- Go `filepath.Clean`: the shortest path equivalent to `path` by purely
lexical processing; a rooted path keeps its leading separator and an empty
result is `.`. -/
def filepathClean (path : String) : String :=
  if cleanChars path.data = [] then "." else ⟨cleanChars path.data⟩

/-- Go `filepath.ToSlash`. -/
def filepathToSlash (path : String) : String :=
  if Separator = '/' then path
  else ⟨path.data.map (fun c => if c = Separator then '/' else c)⟩

/-- Go `filepath.Join`: the elements from the first non-empty one on are joined
with the separator and cleaned; without a non-empty element the result is the
empty string. -/
def filepathJoin (elem : List String) : String :=
  match elem.dropWhile (fun e => e = "") with
  | [] => ""
  | es => filepathClean (String.intercalate (String.singleton Separator) es)

/-- Go `filepath.Base`: the last element of the path, after removal of trailing
separators; `.` for the empty path and the separator for a path of separators
only. -/
def filepathBase (path : String) : String :=
  if path = "" then "."
  else
    let stripped := path.data.reverse.dropWhile isPathSeparator
    let last := (stripped.takeWhile (fun c => !isPathSeparator c)).reverse
    if last = [] then String.singleton Separator else ⟨last⟩

/-! ## Auxiliary predicates -/

/-- A real path element: not empty, without separator, and neither `.` nor
`..`. -/
def IsRealElem (e : List Char) : Prop :=
  e ≠ [] ∧ Separator ∉ e ∧ e ≠ ['.'] ∧ e ≠ ['.', '.']

instance (e : List Char) : Decidable (IsRealElem e) := by
  unfold IsRealElem; infer_instance

/-- The invariant of the buffer of `filepath.Clean`: the elements written are
real elements, and a rooted path has no leading `..`. -/
def GoodBuf (rooted : Bool) (out : CleanBuf) : Prop :=
  (∀ e ∈ out.elems, IsRealElem e) ∧ (rooted = true → out.dotdot = 0)

/-! ## Configuration -/

/-- Go `Config`. -/
structure Config where
  WorkDir : String
  Path : String
  PackageName : String
  AbsPath : String
  TableSchema : String
  DNS : String
  DriverName : String
  ModelTemplate : String
  UpdateTime : String
  CreateTime : String
  deriving DecidableEq, Repr

/-- Go `init`: the initial value of the package variable `config`; `dir` is what
`os.Getwd` returned. -/
def init (dir : String) : Config :=
  let config : Config :=
    { WorkDir := dir
      Path := dir
      PackageName := "model"
      AbsPath := ""
      TableSchema := ""
      DNS := ""
      DriverName := "mysql"
      ModelTemplate := "model.tpl"
      UpdateTime := "UpdateTime"
      CreateTime := "CreateTime" }
  { config with
    AbsPath := filepathClean (filepathToSlash (filepathJoin [config.Path, config.PackageName])) }

/-- Go `SetPath`. -/
def SetPath (config : Config) (path : String) : Config :=
  let config := { config with Path := path }
  { config with AbsPath := filepathJoin [config.Path, config.PackageName] }

/-- Go `SetPackageName`. -/
def SetPackageName (config : Config) (packageName : String) : Config :=
  let config := { config with PackageName := packageName }
  { config with AbsPath := filepathJoin [config.Path, config.PackageName] }

/-- Go `SetDatabase`. -/
def SetDatabase (config : Config) (database : String) : Config :=
  { config with TableSchema := database }

/-- Go `SetDNS`. -/
def SetDNS (config : Config) (dns : String) : Config :=
  { config with DNS := dns }

/-- Go `SetDriverName`. -/
def SetDriverName (config : Config) (driverName : String) : Config :=
  { config with DriverName := driverName }

/-- A call of one of the five setters. -/
inductive SetterCall where
  | setPath (path : String)
  | setPackageName (packageName : String)
  | setDatabase (database : String)
  | setDNS (dns : String)
  | setDriverName (driverName : String)
  deriving DecidableEq, Repr

/-- The effect of a setter call on the package variable `config`. -/
def SetterCall.apply (config : Config) : SetterCall → Config
  | .setPath path => SetPath config path
  | .setPackageName packageName => SetPackageName config packageName
  | .setDatabase database => SetDatabase config database
  | .setDNS dns => SetDNS config dns
  | .setDriverName driverName => SetDriverName config driverName

/-- The configuration after `init` and a sequence of setter calls. -/
def configAfter (dir : String) (calls : List SetterCall) : Config :=
  calls.foldl SetterCall.apply (init dir)

/-- Go `autoTime`: a `switch` over the field name with the two literal cases
`UpdateTime` and `CreateTime`; the package variable `config` is not read. -/
def autoTime (field : String) : String :=
  if field = "UpdateTime" then "autoUpdateTime"
  else if field = "CreateTime" then "autoCreateTime"
  else ""

/-- The behaviour the spec describes for the `autoTime` helper: the annotation
is chosen by comparing the field name with the configured marker names. -/
def specAutoTime (config : Config) (field : String) : String :=
  if field = config.UpdateTime then "autoUpdateTime"
  else if field = config.CreateTime then "autoCreateTime"
  else ""

/-! ## The bundle-building loop of `generate` -/

/-- Go `TableInfo`. -/
structure TableInfo where
  Name : String
  Comment : String
  deriving DecidableEq, Repr

/-- Go `TableOutInfo`.  The component `TableInfo` is a pointer in Go; here it is
the position of the record in the list of `TableInfo` records that
`getTableInfo` allocated. -/
structure TableOutInfo where
  OriginTableName : String
  PackageName : String
  TableInfo : Nat
  Fields : List Field
  TagFields : List String
  deriving DecidableEq, Repr

/-- The first `for` loop of `generate`.  `heap` holds the `TableInfo` records,
the list of numbers is the slice of pointers being ranged over, and
`getColumnsInfo` is the column query of the Schema Reader.  Each round reads the
record, fetches its columns under the current (raw) name, normalizes the
fields, builds the bundle with the raw name and the pointer, and only then
overwrites the record's name. -/
def generateLoop (U : UnicodeTables) (config : Config)
    (getColumnsInfo : String → String → List Field) :
    List Nat → List TableInfo → List TableOutInfo
      → Except String (List TableInfo × List TableOutInfo)
  | [], heap, tableOutInfos => .ok (heap, tableOutInfos)
  | ptr :: rest, heap, tableOutInfos =>
    match heap[ptr]? with
    | none => .error "runtime error: invalid memory address or nil pointer dereference"
    | some tableInfo => do
      let fields := getColumnsInfo config.TableSchema tableInfo.Name
      let (tagFields, fields) ← generateTagFields U fields
      let toi : TableOutInfo :=
        { OriginTableName := tableInfo.Name
          PackageName := config.PackageName
          TableInfo := ptr
          TagFields := tagFields
          Fields := fields }
      let heap := heap.set ptr { tableInfo with Name := convert U tableInfo.Name }
      generateLoop U config getColumnsInfo rest heap (tableOutInfos ++ [toi])

/-- The bundle-building part of `generate` on the tables the Schema Reader
returned: `getTableInfo` allocates one record per row, so the pointers are the
positions `0, 1, ...` of the rows.  The result is the records as they are when
rendering starts, and the bundles. -/
def generateBundles (U : UnicodeTables) (config : Config)
    (getColumnsInfo : String → String → List Field) (tableInfos : List TableInfo) :
    Except String (List TableInfo × List TableOutInfo) :=
  generateLoop U config getColumnsInfo (List.range tableInfos.length) tableInfos []

/-- The file a render unit creates in the staging directory `dir`:
`filepath.Join(dir, tableOutInfo.OriginTableName) + ".go"`. -/
def stagedFile (dir : String) (tableOutInfo : TableOutInfo) : String :=
  filepathJoin [dir, tableOutInfo.OriginTableName] ++ ".go"

/-- The table of the spec's round-trip example. -/
def exampleTables : List TableInfo :=
  [{ Name := "user", Comment := "User table" }]

/-- A table whose name contains the path separator, which a quoted MySQL
identifier may. -/
def slashTables : List TableInfo :=
  [{ Name := "a/b", Comment := "t" }]

/-- The bundle built for the table `a/b` when its columns are those of the
round-trip example. -/
def slashBundle : TableOutInfo :=
  { OriginTableName := "a/b"
    PackageName := "model"
    TableInfo := 0
    Fields :=
      [ { Name := "ID", Desc := "", Type_ := "int", IsNull := "NO", ColumnType := "int(11)",
          Length := 0 },
        { Name := "CreateTime", Desc := "", Type_ := "time.Time", IsNull := "YES",
          ColumnType := "datetime", Length := 0 } ]
    TagFields := ["id", "createTime"] }

/-- A column query that answers with one column of type `json`. -/
def jsonColumns (_tableSchema _tableName : String) : List Field :=
  [ { Name := "profile", Desc := "", Type_ := "json", IsNull := "YES", ColumnType := "json",
      Length := 0 } ]

/-! ## Promotion of the staged files -/

/-- A directory as `ioutil.ReadDir` lists it, entry by entry, together with what
the entries hold: a non-directory entry with its content (`none` when
`ioutil.ReadFile` fails on it), a directory with its own listing, or a directory
on which `ioutil.ReadDir` fails. -/
inductive DirTree where
  | nil : DirTree
  | file (name : String) (data : Option String) (rest : DirTree) : DirTree
  | dir (name : String) (sub : DirTree) (rest : DirTree) : DirTree
  | unreadableDir (name : String) (rest : DirTree) : DirTree
  deriving DecidableEq, Repr

/-- Go `getFileAndDirList` on the directory `path` whose listing is the tree:
the paths of the non-directory entries, those of a subdirectory in place of the
subdirectory; an unreadable subdirectory makes the walk fail. -/
def getFileAndDirList : DirTree → String → Except String (List String)
  | .nil, _ => .ok []
  | .file name _ rest, path => do
    let res ← getFileAndDirList rest path
    .ok (filepathJoin [path, name] :: res)
  | .dir name sub rest, path => do
    let list ← getFileAndDirList sub (filepathJoin [path, name])
    let res ← getFileAndDirList rest path
    .ok (list ++ res)
  | .unreadableDir name _, path =>
    .error ("open " ++ filepathJoin [path, name] ++ ": permission denied")

/-- `ioutil.ReadFile(file)` on the staged tree rooted at `path`: the content of
the non-directory entry whose path is `file`; `none` when there is no such entry
or it cannot be read. -/
def readFile : DirTree → String → String → Option String
  | .nil, _, _ => none
  | .file name data rest, path, file =>
    if filepathJoin [path, name] = file then data else readFile rest path file
  | .dir name sub rest, path, file =>
    match readFile sub (filepathJoin [path, name]) file with
    | some data => some data
    | none => readFile rest path file
  | .unreadableDir _ rest, path, file => readFile rest path file

/-- The files written so far, as pairs of path and content. -/
abbrev Files := List (String × String)

/-- `ioutil.WriteFile(name, data, perm)`: creates the file or replaces its
content. -/
def writeFile (files : Files) (name : String) (data : String) : Files :=
  (name, data) :: files.filter (fun e => e.1 ≠ name)

/-- The copy loop of `moveDir`: the first component of the result is the error
returned (`none` for `nil`), the second the files written.  `canWrite` tells on
which paths `ioutil.WriteFile` succeeds. -/
def moveDirLoop (tree : DirTree) (canWrite : String → Bool) (oldPath newPath : String) :
    List String → Files → Option String × Files
  | [], files => (none, files)
  | file :: rest, files =>
    let filename := filepathBase file
    match readFile tree oldPath file with
    | none => (some ("open " ++ file ++ ": cannot read"), files)
    | some data =>
      if canWrite (filepathJoin [newPath, filename]) then
        moveDirLoop tree canWrite oldPath newPath rest
          (writeFile files (filepathJoin [newPath, filename]) data)
      else (some ("open " ++ filepathJoin [newPath, filename] ++ ": cannot write"), files)

/-- Go `moveDir(oldPath, newPath)`.  `tree` is the staged directory at
`oldPath`, `files` the files present under `newPath` at the start (the
directory is created when it is missing).  A failing walk panics; a failing
read or write is returned as the error. -/
def moveDir (tree : DirTree) (canWrite : String → Bool) (files : Files)
    (oldPath newPath : String) : Except String (Option String × Files) :=
  match getFileAndDirList tree oldPath with
  | .error e => .error e
  | .ok fileList => .ok (moveDirLoop tree canWrite oldPath newPath fileList files)

/-- The names in a directory listing are file names: real path elements. -/
def DirTree.WellFormed : DirTree → Prop
  | .nil => True
  | .file name _ rest => IsRealElem name.data ∧ rest.WellFormed
  | .dir name sub rest => IsRealElem name.data ∧ sub.WellFormed ∧ rest.WellFormed
  | .unreadableDir name rest => IsRealElem name.data ∧ rest.WellFormed

/-- The non-directory files found anywhere in a staged tree: `tree.HasFile name
data` says that some directory of the tree, at any depth below a readable
directory, lists a non-directory entry `name` holding `data`. -/
inductive DirTree.HasFile : DirTree → String → Option String → Prop
  | here (name : String) (data : Option String) (rest : DirTree) :
      DirTree.HasFile (.file name data rest) name data
  | afterFile {name : String} {data : Option String} {rest : DirTree}
      {n : String} {d : Option String} :
      DirTree.HasFile rest n d → DirTree.HasFile (.file name data rest) n d
  | inDir {name : String} {sub rest : DirTree} {n : String} {d : Option String} :
      DirTree.HasFile sub n d → DirTree.HasFile (.dir name sub rest) n d
  | afterDir {name : String} {sub rest : DirTree} {n : String} {d : Option String} :
      DirTree.HasFile rest n d → DirTree.HasFile (.dir name sub rest) n d
  | afterUnreadable {name : String} {rest : DirTree} {n : String} {d : Option String} :
      DirTree.HasFile rest n d → DirTree.HasFile (.unreadableDir name rest) n d

/-- A staged tree with two files at the top, one in a subdirectory and one two
levels down. -/
def exampleTree : DirTree :=
  .file "post.go" (some "package model // post")
    (.dir "sub"
      (.dir "deep" (.file "low.go" (some "package model // low") .nil)
        (.file "c.go" (some "package model // c") .nil))
      (.file "user.go" (some "package model // user") .nil))

/-- The destination after the promotion of `exampleTree`. -/
def exampleDestination : Files :=
  [("/out/model/user.go", "package model // user"),
   ("/out/model/c.go", "package model // c"),
   ("/out/model/low.go", "package model // low"),
   ("/out/model/post.go", "package model // post")]

/-- The columns of the spec's round-trip example: `id` (int, not null) and
`create_time` (datetime, nullable). -/
def exampleFields : List Field :=
  [ { Name := "id", Desc := "", Type_ := "int", IsNull := "NO", ColumnType := "int(11)",
      Length := 0 },
    { Name := "create_time", Desc := "", Type_ := "datetime", IsNull := "YES",
      ColumnType := "datetime", Length := 0 } ]

/-- A column query that answers with the columns of the round-trip example. -/
def exampleColumns (_tableSchema _tableName : String) : List Field :=
  exampleFields

/-- A configuration whose update-marker name differs from the default. -/
def customMarkerConfig : Config :=
  { init "/work" with UpdateTime := "ModifiedAt" }

/-! ## Conformance of the library transcriptions -/

/-- The transcription of `filepath.Clean` agrees with the library on the cases
of the library's own test table (`cleantests`, separator `/`). -/
theorem filepathClean_conformance :
    filepathClean "abc" = "abc"
      ∧ filepathClean "abc/def" = "abc/def"
      ∧ filepathClean "a/b/c" = "a/b/c"
      ∧ filepathClean "." = "."
      ∧ filepathClean ".." = ".."
      ∧ filepathClean "../.." = "../.."
      ∧ filepathClean "../../abc" = "../../abc"
      ∧ filepathClean "/abc" = "/abc"
      ∧ filepathClean "/" = "/"
      ∧ filepathClean "" = "."
      ∧ filepathClean "abc/" = "abc"
      ∧ filepathClean "abc/def/" = "abc/def"
      ∧ filepathClean "a/b/c/" = "a/b/c"
      ∧ filepathClean "./" = "."
      ∧ filepathClean "../" = ".."
      ∧ filepathClean "../../" = "../.."
      ∧ filepathClean "/abc/" = "/abc"
      ∧ filepathClean "abc//def//ghi" = "abc/def/ghi"
      ∧ filepathClean "abc//" = "abc"
      ∧ filepathClean "abc/./def" = "abc/def"
      ∧ filepathClean "/./abc/def" = "/abc/def"
      ∧ filepathClean "abc/." = "abc"
      ∧ filepathClean "abc/def/ghi/../jkl" = "abc/def/jkl"
      ∧ filepathClean "abc/def/../ghi/../jkl" = "abc/jkl"
      ∧ filepathClean "abc/def/.." = "abc"
      ∧ filepathClean "abc/def/../.." = "."
      ∧ filepathClean "/abc/def/../.." = "/"
      ∧ filepathClean "abc/def/../../.." = ".."
      ∧ filepathClean "/abc/def/../../.." = "/"
      ∧ filepathClean "abc/def/../../../ghi/jkl/../../../mno" = "../../mno"
      ∧ filepathClean "/../abc" = "/abc"
      ∧ filepathClean "abc/./../def" = "def"
      ∧ filepathClean "abc//./../def" = "def"
      ∧ filepathClean "abc/../../././../def" = "../../def"
      ∧ filepathClean "//abc" = "/abc"
      ∧ filepathClean "///abc" = "/abc"
      ∧ filepathClean "//abc//" = "/abc" := by
  decide

/-- The transcription of `filepath.Base` on the library's test table. -/
theorem filepathBase_conformance :
    filepathBase "" = "."
      ∧ filepathBase "." = "."
      ∧ filepathBase "/." = "."
      ∧ filepathBase "/" = "/"
      ∧ filepathBase "////" = "/"
      ∧ filepathBase "x/" = "x"
      ∧ filepathBase "abc" = "abc"
      ∧ filepathBase "abc/def" = "def"
      ∧ filepathBase "a/b/.x" = ".x"
      ∧ filepathBase "a/b/c." = "c."
      ∧ filepathBase "a/b/c.x" = "c.x" := by
  decide

/-- The transcription of `filepath.Join` on the library's test table. -/
theorem filepathJoin_conformance :
    filepathJoin [] = ""
      ∧ filepathJoin [""] = ""
      ∧ filepathJoin ["/"] = "/"
      ∧ filepathJoin ["a"] = "a"
      ∧ filepathJoin ["a", "b"] = "a/b"
      ∧ filepathJoin ["a", ""] = "a"
      ∧ filepathJoin ["", "b"] = "b"
      ∧ filepathJoin ["/", "a"] = "/a"
      ∧ filepathJoin ["/", "a/b"] = "/a/b"
      ∧ filepathJoin ["/", ""] = "/"
      ∧ filepathJoin ["/a", "b"] = "/a/b"
      ∧ filepathJoin ["a", "/b"] = "a/b"
      ∧ filepathJoin ["/a", "/b"] = "/a/b"
      ∧ filepathJoin ["a/", "b"] = "a/b"
      ∧ filepathJoin ["a/", ""] = "a"
      ∧ filepathJoin ["", ""] = ""
      ∧ filepathJoin ["//", "a"] = "/a" := by
  decide

/-- The transcription of `strings.Title` on the ASCII cases of the library's test
table, for any Unicode tables. -/
theorem stringsTitle_conformance (U : UnicodeTables) :
    stringsTitle U "" = ""
      ∧ stringsTitle U "a" = "A"
      ∧ stringsTitle U " aaa aaa aaa " = " Aaa Aaa Aaa "
      ∧ stringsTitle U " Aaa Aaa Aaa " = " Aaa Aaa Aaa "
      ∧ stringsTitle U "123a456" = "123a456"
      ∧ stringsTitle U "double-blind" = "Double-Blind"
      ∧ stringsTitle U "with_underscore" = "With_underscore" :=
  ⟨rfl, rfl, rfl, rfl, rfl, rfl, rfl⟩

/-- The transcription of `strings.Split` on the separator `_`. -/
theorem stringsSplit_conformance :
    stringsSplit "" '_' = [""]
      ∧ stringsSplit "a" '_' = ["a"]
      ∧ stringsSplit "a_b_c" '_' = ["a", "b", "c"]
      ∧ stringsSplit "_a__b_" '_' = ["", "a", "", "b", ""] := by
  decide

/-! ## Lemmas on the string library -/

theorem foldl_append_data (f : String → String) (l : List String) (init : String) :
    (l.foldl (fun buff sp => buff ++ f sp) init).data
      = init.data ++ (l.map (fun sp => (f sp).data)).flatten := by
  induction l generalizing init with
  | nil => simp
  | cons x xs ih => simp [ih, String.data_append, List.append_assoc]

theorem titleMap_eq_zipWith (U : UnicodeTables) (prev : Char) (l : List Char) :
    titleMap U prev l
      = List.zipWith (fun p c => if isSeparator U p then unicodeToTitle U c else c)
          (prev :: l) l := by
  induction l generalizing prev with
  | nil => simp [titleMap]
  | cons c cs ih => simp [titleMap, ih]

theorem titleMap_of_no_separator (U : UnicodeTables) (prev : Char) (l : List Char)
    (hp : isSeparator U prev = false) (hl : ∀ c ∈ l, isSeparator U c = false) :
    titleMap U prev l = l := by
  induction l generalizing prev with
  | nil => simp [titleMap]
  | cons c cs ih =>
    have hc : isSeparator U c = false := hl c (List.mem_cons_self _ _)
    simp [titleMap, hp, ih c hc (fun d hd => hl d (List.mem_cons_of_mem _ hd))]

theorem isSeparator_space (U : UnicodeTables) : isSeparator U ' ' = true := by
  rfl

theorem stringsTitle_eq_titleWords (U : UnicodeTables) (seg : String) :
    stringsTitle U seg = titleWords U seg := by
  simp [stringsTitle, titleWords, titleMap_eq_zipWith]

theorem stringsTitle_eq_capitalizeFirst (U : UnicodeTables) (seg : String)
    (h : ∀ c ∈ seg.data, isSeparator U c = false) :
    stringsTitle U seg = capitalizeFirst U seg := by
  cases hd : seg.data with
  | nil => simp [stringsTitle, capitalizeFirst, hd, titleMap]
  | cons c cs =>
    rw [hd] at h
    have hc : isSeparator U c = false := h c (List.mem_cons_self _ _)
    have hcs := titleMap_of_no_separator U c cs hc (fun d hd => h d (List.mem_cons_of_mem _ hd))
    simp [stringsTitle, capitalizeFirst, hd, titleMap, isSeparator_space, hcs]

theorem splitCore_no_sep (sep : Char) (l : List Char) :
    sep ∉ (splitCore sep l).1 ∧ ∀ seg ∈ (splitCore sep l).2, sep ∉ seg := by
  induction l with
  | nil => simp [splitCore]
  | cons c cs ih =>
    by_cases hc : c = sep
    · simp only [splitCore, hc, if_true]
      refine ⟨by simp, ?_⟩
      intro seg hseg
      rcases List.mem_cons.1 hseg with h | h
      · rw [h]; exact ih.1
      · exact ih.2 seg h
    · simp only [splitCore, hc, if_false]
      refine ⟨?_, ih.2⟩
      intro hmem
      rcases List.mem_cons.1 hmem with h | h
      · exact hc h.symm
      · exact ih.1 h

theorem splitCore_subset (sep : Char) (l : List Char) :
    (∀ c ∈ (splitCore sep l).1, c ∈ l) ∧ ∀ seg ∈ (splitCore sep l).2, ∀ c ∈ seg, c ∈ l := by
  induction l with
  | nil => simp [splitCore]
  | cons c cs ih =>
    by_cases hc : c = sep
    · simp only [splitCore, hc, if_true]
      refine ⟨by simp, ?_⟩
      intro seg hseg d hd
      rcases List.mem_cons.1 hseg with h | h
      · rw [h] at hd; exact List.mem_cons_of_mem _ (ih.1 d hd)
      · exact List.mem_cons_of_mem _ (ih.2 seg h d hd)
    · simp only [splitCore, hc, if_false]
      refine ⟨?_, fun seg hseg d hd => List.mem_cons_of_mem _ (ih.2 seg hseg d hd)⟩
      intro d hd
      rcases List.mem_cons.1 hd with h | h
      · rw [h]; exact List.mem_cons_self _ _
      · exact List.mem_cons_of_mem _ (ih.1 d h)

theorem stringsSplit_no_sep (s : String) (sep : Char) :
    ∀ seg ∈ stringsSplit s sep, sep ∉ seg.data := by
  intro seg hseg
  simp only [stringsSplit, List.mem_cons, List.mem_map] at hseg
  rcases hseg with h | ⟨l, hl, h⟩
  · rw [h]; exact (splitCore_no_sep sep s.data).1
  · rw [← h]; exact (splitCore_no_sep sep s.data).2 l hl

theorem stringsSplit_subset (s : String) (sep : Char) :
    ∀ seg ∈ stringsSplit s sep, ∀ c ∈ seg.data, c ∈ s.data := by
  intro seg hseg
  simp only [stringsSplit, List.mem_cons, List.mem_map] at hseg
  rcases hseg with h | ⟨l, hl, h⟩
  · rw [h]; exact (splitCore_subset sep s.data).1
  · rw [← h]; exact (splitCore_subset sep s.data).2 l hl

theorem unicodeToTitle_ne_underscore (U : UnicodeTables) (hT : ∀ c, c ≠ '_' → U.toTitle c ≠ '_')
    (c : Char) (hc : c ≠ '_') : unicodeToTitle U c ≠ '_' := by
  unfold unicodeToTitle
  split
  · split
    · rename_i h1 h2
      have h3 : 'a'.toNat = 97 := by decide
      have h4 : 'z'.toNat = 122 := by decide
      have h5 : 'A'.toNat = 65 := by decide
      rw [h3, h4] at h2
      rw [h3, h5]
      generalize c.toNat = n at h2
      obtain ⟨ha, hb⟩ := h2
      interval_cases n <;> decide
    · exact hc
  · exact hT c hc

theorem titleMap_no_underscore (U : UnicodeTables) (hT : ∀ c, c ≠ '_' → U.toTitle c ≠ '_')
    (prev : Char) (l : List Char) (hl : '_' ∉ l) : '_' ∉ titleMap U prev l := by
  induction l generalizing prev with
  | nil => simp [titleMap]
  | cons c cs ih =>
    have hc : c ≠ '_' := fun h => hl (h ▸ List.mem_cons_self _ _)
    have hcs : '_' ∉ cs := fun h => hl (List.mem_cons_of_mem _ h)
    simp only [titleMap, List.mem_cons, not_or]
    refine ⟨?_, ih c hcs⟩
    split
    · exact fun h => unicodeToTitle_ne_underscore U hT c hc h.symm
    · exact fun h => hc h.symm

theorem convert_eq_foldl (U : UnicodeTables) (s : String)
    (hs : ¬ (s = "id" ∨ s = "iD" ∨ s = "Id")) :
    convert U s = (stringsSplit s '_').foldl (fun buff sp => buff ++ stringsTitle U sp) "" := by
  simp only [convert, hs, if_false]

theorem convert_data (U : UnicodeTables) (s : String)
    (hs : ¬ (s = "id" ∨ s = "iD" ∨ s = "Id")) :
    (convert U s).data = ((stringsSplit s '_').map (fun sp => (stringsTitle U sp).data)).flatten := by
  rw [convert_eq_foldl U s hs, foldl_append_data]
  simp

theorem toLower_eq_cases (c : Char) (lo up : Char) (hlo : lo.toNat - 32 = up.toNat)
    (hup : 65 ≤ up.toNat ∧ up.toNat ≤ 90) (h : c.toLower = lo) : c = lo ∨ c = up := by
  unfold Char.toLower at h
  simp only at h
  split at h
  · rename_i hb
    right
    obtain ⟨h1, h2⟩ := hb
    obtain ⟨h3, h4⟩ := hup
    rw [← Char.ofNat_toNat c, ← Char.ofNat_toNat up]
    congr 1
    have h5 : lo.toNat = c.toNat + 32 := by
      rw [← h]
      generalize c.toNat = n at h1 h2
      have h6 : n ≥ 65 := h1
      interval_cases n <;> rfl
    omega
  · exact Or.inl h

theorem caseVariantOfId_cases (s : String) (h : caseVariantOfId s) :
    s = "id" ∨ s = "iD" ∨ s = "Id" ∨ s = "ID" := by
  unfold caseVariantOfId at h
  obtain ⟨l⟩ := s
  simp only at h
  rcases l with _ | ⟨a, _ | ⟨b, _ | ⟨c, t⟩⟩⟩
  · simp at h
  · simp at h
  · simp only [List.map_cons, List.map_nil, List.cons.injEq, and_true] at h
    have ha := toLower_eq_cases a 'i' 'I' (by decide) (by decide) h.1
    have hb := toLower_eq_cases b 'd' 'D' (by decide) (by decide) h.2
    rcases ha with ha | ha <;> rcases hb with hb | hb <;> subst ha <;> subst hb
    · exact Or.inl rfl
    · exact Or.inr (Or.inl rfl)
    · exact Or.inr (Or.inr (Or.inl rfl))
    · exact Or.inr (Or.inr (Or.inr rfl))
  · simp at h

theorem typeConvert_of_documented (t : String) (h : t ∈ documentedTypes) :
    ∃ ty, typeConvert t = .ok ty := by
  simp only [documentedTypes, List.mem_cons, List.mem_singleton, List.not_mem_nil, or_false] at h
  rcases h with h | h | h | h | h | h | h | h | h | h | h | h | h | h | h | h <;>
    subst h <;> exact ⟨_, rfl⟩

theorem typeConvert_of_not_documented (t : String) (h : t ∉ documentedTypes) :
    typeConvert t = .error (t ++ " not convert") := by
  simp only [documentedTypes, List.mem_cons, List.mem_singleton, List.not_mem_nil, or_false,
    not_or] at h
  obtain ⟨h1, h2, h3, h4, h5, h6, h7, h8, h9, h10, h11, h12, h13, h14, h15, h16⟩ := h
  simp [typeConvert, h1, h2, h3, h4, h5, h6, h7, h8, h9, h10, h11, h12, h13, h14, h15, h16]

theorem tagFieldConvert_eq (U : UnicodeTables) (s : String) :
    tagFieldConvert U s
      = .ok ((((splitCore '_' s.data).2.map String.mk).foldl
          (fun buff sp => buff ++ stringsTitle U sp)
          ("" ++ stringsToLower U (String.mk (splitCore '_' s.data).1)))) := by
  simp [tagFieldConvert, stringsSplit]

theorem generateTagFieldsLoop_spec (U : UnicodeTables) (fields : List Field)
    (h : ∀ f ∈ fields, f.Type_ ∈ documentedTypes) (acc : List String) (done : List Field) :
    ∃ tags fields', generateTagFieldsLoop U fields acc done = .ok (acc ++ tags, done ++ fields')
      ∧ List.Forall₂ (fun f t => tagFieldConvert U f.Name = .ok t) fields tags
      ∧ List.Forall₂ (fun f g => g.Name = convert U f.Name ∧ typeConvert f.Type_ = .ok g.Type_
          ∧ g.Desc = f.Desc ∧ g.IsNull = f.IsNull ∧ g.ColumnType = f.ColumnType
          ∧ g.Length = f.Length) fields fields' := by
  induction fields generalizing acc done with
  | nil => exact ⟨[], [], by simp [generateTagFieldsLoop], List.Forall₂.nil, List.Forall₂.nil⟩
  | cons f fs ih =>
    obtain ⟨ty, hty⟩ := typeConvert_of_documented f.Type_ (h f (List.mem_cons_self _ _))
    have htag := tagFieldConvert_eq U f.Name
    obtain ⟨tags, fields', hrun, htags, hfields⟩ :=
      ih (fun g hg => h g (List.mem_cons_of_mem _ hg)) (acc ++ [_])
        (done ++ [{ f with Name := convert U f.Name, Type_ := ty }])
    refine ⟨_ :: tags, { f with Name := convert U f.Name, Type_ := ty } :: fields', ?_,
      List.Forall₂.cons htag htags, List.Forall₂.cons ⟨rfl, hty, rfl, rfl, rfl, rfl⟩ hfields⟩
    simp only [generateTagFieldsLoop, htag, hty, bind, Except.bind]
    rw [hrun]
    simp

/-- On ASCII input the Unicode tables are not consulted: whatever the tables,
`a$b` is converted to `A$B` and the tag of `x_a$b` is `xA$B`. -/
theorem title_after_dollar_any_tables (U : UnicodeTables) :
    convert U "a$b" = "A$B" ∧ tagFieldConvert U "x_a$b" = .ok "xA$B"
      ∧ specNormalizeIdentifier U "a$b" = "A$b" ∧ specNormalizeTagName U "x_a$b" = "xA$b" :=
  ⟨rfl, rfl, rfl, rfl⟩

/-! ## The claims on the naming normalizer and the type mapper -/

/-- C1 (as stated, refuted): `a$b` is not a case variant of `id`, yet `convert`
gives `A$B` while the segments with only their first letter upper-cased give
`A$b`: `strings.Title` also upper-cases the letter after the separator `$`. -/
theorem convert_not_first_letter_only :
    ¬ caseVariantOfId "a$b"
      ∧ convert UnicodeTables.identity "a$b" = "A$B"
      ∧ specNormalizeIdentifier UnicodeTables.identity "a$b" = "A$b"
      ∧ convert UnicodeTables.identity "a$b" ≠ specNormalizeIdentifier UnicodeTables.identity "a$b" := by
  decide

/-- C1 (amended): for every raw identifier other than `id`, `iD`, `Id`, the
result of `convert` contains no underscore (given that title-casing a character
other than the underscore never yields an underscore) and is the concatenation, in order, of the underscore-delimited
segments, each with its first character and every character directly after a
separator character title-cased and the rest unchanged; when the identifier has
no separator character this is each segment with only its first letter
upper-cased. -/
theorem convert_title_segments (U : UnicodeTables) (hT : ∀ c, c ≠ '_' → U.toTitle c ≠ '_') (s : String)
    (hs : ¬ (s = "id" ∨ s = "iD" ∨ s = "Id")) :
    '_' ∉ (convert U s).data
      ∧ convert U s = String.join ((stringsSplit s '_').map (titleWords U))
      ∧ ((∀ c ∈ s.data, isSeparator U c = false) → convert U s = specNormalizeIdentifier U s) := by
  refine ⟨?_, ?_, ?_⟩
  · rw [convert_data U s hs]
    intro hmem
    obtain ⟨l, hl, hc⟩ := List.mem_flatten.1 hmem
    obtain ⟨seg, hseg, rfl⟩ := List.mem_map.1 hl
    exact titleMap_no_underscore U hT ' ' seg.data (stringsSplit_no_sep s '_' seg hseg) hc
  · apply String.ext
    rw [convert_data U s hs, String.data_join, List.map_map]
    congr 1
    apply List.map_congr_left
    intro seg _
    simp [stringsTitle_eq_titleWords]
  · intro hsep
    apply String.ext
    rw [convert_data U s hs, specNormalizeIdentifier, String.data_join, List.map_map]
    congr 1
    apply List.map_congr_left
    intro seg hseg
    have := stringsTitle_eq_capitalizeFirst U seg
      (fun c hc => hsep c (stringsSplit_subset s '_' seg hseg c hc))
    simp [this]

/-- C1 (amended), instance: `create_time` is not one of the three special
spellings, has no separator character, and becomes `CreateTime`. -/
theorem convert_title_segments_witness :
    (∀ c, c ≠ '_' → UnicodeTables.identity.toTitle c ≠ '_')
      ∧ ¬ ("create_time" = "id" ∨ "create_time" = "iD" ∨ "create_time" = "Id")
      ∧ (∀ c ∈ "create_time".data, isSeparator UnicodeTables.identity c = false)
      ∧ '_' ∉ (convert UnicodeTables.identity "create_time").data
      ∧ convert UnicodeTables.identity "create_time"
          = specNormalizeIdentifier UnicodeTables.identity "create_time"
      ∧ convert UnicodeTables.identity "create_time" = "CreateTime" :=
  have hT : ∀ c, c ≠ '_' → UnicodeTables.identity.toTitle c ≠ '_' := fun _ hc => hc
  have hs : ¬ ("create_time" = "id" ∨ "create_time" = "iD" ∨ "create_time" = "Id") := by decide
  have hsep : ∀ c ∈ "create_time".data, isSeparator UnicodeTables.identity c = false := by decide
  have h := convert_title_segments UnicodeTables.identity hT "create_time" hs
  ⟨hT, hs, hsep, h.1, h.2.2 hsep, by decide⟩

/-- C2 (as stated, refuted): for the column name `x_a$b` the code returns `xA$B`,
whereas the first segment lower-cased followed by the later segment with its
first letter capitalised is `xA$b`. -/
theorem tagFieldConvert_not_first_letter_only :
    tagFieldConvert UnicodeTables.identity "x_a$b" = .ok "xA$B"
      ∧ specNormalizeTagName UnicodeTables.identity "x_a$b" = "xA$b"
      ∧ tagFieldConvert UnicodeTables.identity "x_a$b"
          ≠ .ok (specNormalizeTagName UnicodeTables.identity "x_a$b") :=
  ⟨rfl, by decide, fun h => absurd (Except.ok.inj h) (by decide)⟩

/-- C2 (amended): `tagFieldConvert` returns a result for every string, the empty
one included: the first underscore-delimited segment lower-cased followed by
each later segment with its first character and every character directly after
a separator character title-cased, joined with no separator; for a name without
separator characters only the first letter of each later segment is
capitalised; `create_time` gives `createTime` and `id` gives `id`. -/
theorem tagFieldConvert_title_segments (U : UnicodeTables) (s : String) :
    (∃ s0 rest, stringsSplit s '_' = s0 :: rest
        ∧ tagFieldConvert U s
            = .ok (stringsToLower U s0 ++ String.join (rest.map (titleWords U))))
      ∧ ((∀ c ∈ s.data, isSeparator U c = false)
          → tagFieldConvert U s = .ok (specNormalizeTagName U s))
      ∧ tagFieldConvert U "" = .ok ""
      ∧ tagFieldConvert U "create_time" = .ok "createTime"
      ∧ tagFieldConvert U "id" = .ok "id" := by
  have key : ∀ (f : String → String) (s0 : String) (rest : List String),
      (∀ seg ∈ rest, stringsTitle U seg = f seg) →
      rest.foldl (fun buff sp => buff ++ stringsTitle U sp) ("" ++ stringsToLower U s0)
        = stringsToLower U s0 ++ String.join (rest.map f) := by
    intro f s0 rest hf
    apply String.ext
    rw [foldl_append_data, String.data_append, String.data_append, String.data_join,
      List.map_map]
    show ([] : List Char) ++ _ ++ _ = _
    rw [List.nil_append]
    congr 2
    apply List.map_congr_left
    intro seg hseg
    simp [hf seg hseg]
  refine ⟨⟨_, _, rfl, ?_⟩, ?_, rfl, rfl, rfl⟩
  · simp only [tagFieldConvert, stringsSplit]
    rw [key (titleWords U) _ _ (fun seg _ => stringsTitle_eq_titleWords U seg)]
  · intro hsep
    have hsub := stringsSplit_subset s '_'
    simp only [tagFieldConvert, specNormalizeTagName, stringsSplit] at hsub ⊢
    rw [key (capitalizeFirst U) _ _ (fun seg hseg =>
      stringsTitle_eq_capitalizeFirst U seg
        (fun c hc => hsep c (hsub seg (List.mem_cons_of_mem _ hseg) c hc)))]

/-- C2 (amended), instance: `create_time` has no separator character and its tag
name is the spec's `createTime`. -/
theorem tagFieldConvert_title_segments_witness :
    (∀ c ∈ "create_time".data, isSeparator UnicodeTables.identity c = false)
      ∧ tagFieldConvert UnicodeTables.identity "create_time"
          = .ok (specNormalizeTagName UnicodeTables.identity "create_time")
      ∧ specNormalizeTagName UnicodeTables.identity "create_time" = "createTime" :=
  have hsep : ∀ c ∈ "create_time".data, isSeparator UnicodeTables.identity c = false := by decide
  ⟨hsep, (tagFieldConvert_title_segments UnicodeTables.identity "create_time").2.1 hsep, by decide⟩

/-- C3: `typeConvert` returns a target type exactly for the documented database
type names; for every other type name `t` it panics with `t ++ " not convert"`,
so no default type is ever returned. -/
theorem typeConvert_defined_iff_documented (t : String) :
    ((∃ ty, typeConvert t = .ok ty) ↔ t ∈ documentedTypes)
      ∧ (t ∉ documentedTypes → typeConvert t = .error (t ++ " not convert")) := by
  refine ⟨⟨?_, typeConvert_of_documented t⟩, typeConvert_of_not_documented t⟩
  rintro ⟨ty, hty⟩
  by_contra hne
  rw [typeConvert_of_not_documented t hne] at hty
  cases hty

/-- C3, instance: `json` is not in the type table and `typeConvert "json"` panics
with `json not convert`. -/
theorem typeConvert_defined_iff_documented_witness :
    "json" ∉ documentedTypes ∧ typeConvert "json" = .error "json not convert" :=
  ⟨by decide, (typeConvert_defined_iff_documented "json").2 (by decide)⟩

/-- C4 (as stated, refuted): for the database type `int` the code returns the Go
type `int`, which on a 64-bit target is a 64-bit signed integer, while the
spec's table gives a 32-bit signed integer. -/
theorem typeConvert_int_not_32_bit :
    typeConvert "int" = .ok "int"
      ∧ goType 64 "int" = some (.signedInt 64)
      ∧ specTypeTable "int" = some (.signedInt 32)
      ∧ (typeConvert "int").toOption.bind (goType 64) ≠ specTypeTable "int" :=
  ⟨rfl, by decide, by decide, by decide⟩

/-- C4 (amended): on every documented database type `typeConvert` returns a Go
type name whose type is the one of the spec's table, except that `int`,
`timestamp` and `integer` map to the Go type `int`, a signed integer of the
target's width (`intBits`), which is the table's 32-bit type only on a 32-bit
target, where the table holds as the spec states it. -/
theorem typeConvert_table (intBits : Nat) (t : String) (h : t ∈ documentedTypes) :
    ∃ name, typeConvert t = .ok name
      ∧ (t ∈ ["int", "timestamp", "integer"] → name = "int")
      ∧ goType intBits name
          = (if t ∈ ["int", "timestamp", "integer"] then some (.signedInt intBits)
             else specTypeTable t)
      ∧ (intBits = 32 → goType intBits name = specTypeTable t) := by
  simp only [documentedTypes, List.mem_cons, List.mem_singleton, List.not_mem_nil, or_false] at h
  rcases h with h | h | h | h | h | h | h | h | h | h | h | h | h | h | h | h <;>
    subst h <;> exact ⟨_, rfl, by decide, by rfl, fun h32 => by subst h32; rfl⟩

/-- C4 (amended), instance: `bigint` is documented and maps to `int64`, the
64-bit signed integer type, and `timestamp` maps to `int`. -/
theorem typeConvert_table_witness :
    "bigint" ∈ documentedTypes ∧ "timestamp" ∈ documentedTypes
      ∧ typeConvert "bigint" = .ok "int64" ∧ typeConvert "timestamp" = .ok "int"
      ∧ ∃ name, typeConvert "timestamp" = .ok name
          ∧ ("timestamp" ∈ ["int", "timestamp", "integer"] → name = "int")
          ∧ goType 64 name
              = (if "timestamp" ∈ ["int", "timestamp", "integer"] then some (.signedInt 64)
                 else specTypeTable "timestamp")
          ∧ (64 = 32 → goType 64 name = specTypeTable "timestamp") :=
  ⟨by decide, by decide, rfl, rfl, typeConvert_table 64 "timestamp" (by decide)⟩

/-- C6: every case variant of `id` (`id`, `Id`, `iD`, `ID`) is converted to
`ID`. -/
theorem convert_id (U : UnicodeTables) (s : String) (h : caseVariantOfId s) :
    convert U s = "ID" := by
  rcases caseVariantOfId_cases s h with h | h | h | h <;> subst h <;> rfl

/-- C6, instance: `iD` is a case variant of `id` and is converted to `ID`. -/
theorem convert_id_witness :
    caseVariantOfId "iD" ∧ convert UnicodeTables.identity "iD" = "ID" :=
  ⟨by decide, convert_id UnicodeTables.identity "iD" (by decide)⟩

/-- C5: when every field's raw type is in the type table, `generateTagFields`
returns one tag per field, in order, the tag being `tagFieldConvert` of the
field's raw name, and leaves each field with `Name = convert(raw name)`,
`Type = typeConvert(raw type)` and its other components unchanged. -/
theorem generateTagFields_spec (U : UnicodeTables) (fields : List Field)
    (h : ∀ f ∈ fields, f.Type_ ∈ documentedTypes) :
    ∃ tags fields', generateTagFields U fields = .ok (tags, fields')
      ∧ List.Forall₂ (fun f t => tagFieldConvert U f.Name = .ok t) fields tags
      ∧ List.Forall₂ (fun f g => g.Name = convert U f.Name ∧ typeConvert f.Type_ = .ok g.Type_
          ∧ g.Desc = f.Desc ∧ g.IsNull = f.IsNull ∧ g.ColumnType = f.ColumnType
          ∧ g.Length = f.Length) fields fields' := by
  obtain ⟨tags, fields', hrun, htags, hfields⟩ := generateTagFieldsLoop_spec U fields h [] []
  exact ⟨tags, fields', by simpa [generateTagFields] using hrun, htags, hfields⟩

/-! ## Lemmas on `filepath` -/

theorem splitCore_of_no_sep (sep : Char) (e : List Char) (h : sep ∉ e) :
    splitCore sep e = (e, []) := by
  induction e with
  | nil => rfl
  | cons c cs ih =>
    have hc : c ≠ sep := fun h' => h (h' ▸ List.mem_cons_self _ _)
    have hcs : sep ∉ cs := fun h' => h (List.mem_cons_of_mem _ h')
    simp [splitCore, hc, ih hcs]

theorem splitCore_append_sep (sep : Char) (e rest : List Char) (h : sep ∉ e) :
    splitCore sep (e ++ sep :: rest)
      = (e, (splitCore sep rest).1 :: (splitCore sep rest).2) := by
  induction e with
  | nil => simp [splitCore]
  | cons c cs ih =>
    have hc : c ≠ sep := fun h' => h (h' ▸ List.mem_cons_self _ _)
    have hcs : sep ∉ cs := fun h' => h (List.mem_cons_of_mem _ h')
    simp [splitCore, hc, ih hcs]

theorem joinElems_cons_cons (e e' : List Char) (es : List (List Char)) :
    joinElems (e :: e' :: es) = e ++ Separator :: joinElems (e' :: es) := rfl

theorem splitCore_joinElems (e : List Char) (es : List (List Char))
    (h : ∀ x ∈ e :: es, Separator ∉ x) :
    splitCore Separator (joinElems (e :: es)) = (e, es) := by
  induction es generalizing e with
  | nil => exact splitCore_of_no_sep _ _ (h e (List.mem_cons_self _ _))
  | cons e' es ih =>
    rw [joinElems_cons_cons, splitCore_append_sep _ _ _ (h e (List.mem_cons_self _ _)),
      ih e' (fun x hx => h x (List.mem_cons_of_mem _ hx))]

theorem cleanStep_real (rooted : Bool) (out : CleanBuf) (e : List Char) (h : IsRealElem e) :
    cleanStep rooted out e = { out with elems := e :: out.elems } := by
  simp [cleanStep, h.1, h.2.2.1, h.2.2.2]

theorem foldl_cleanStep_real (rooted : Bool) (k : Nat) (acc : List (List Char))
    (l : List (List Char)) (h : ∀ e ∈ l, IsRealElem e) :
    l.foldl (cleanStep rooted) ⟨k, acc⟩ = ⟨k, l.reverse ++ acc⟩ := by
  induction l generalizing acc with
  | nil => rfl
  | cons e es ih =>
    rw [List.foldl_cons, cleanStep_real _ _ _ (h e (List.mem_cons_self _ _)),
      ih _ (fun x hx => h x (List.mem_cons_of_mem _ hx))]
    simp

theorem foldl_cleanStep_dotdot (j k : Nat) :
    (List.replicate k ['.', '.']).foldl (cleanStep false) ⟨j, []⟩ = ⟨j + k, []⟩ := by
  induction k generalizing j with
  | zero => rfl
  | succ k ih =>
    rw [List.replicate_succ, List.foldl_cons]
    have : cleanStep false ⟨j, []⟩ ['.', '.'] = ⟨j + 1, []⟩ := by
      simp [cleanStep]
    rw [this, ih]
    congr 1
    omega

theorem cleanStep_good (rooted : Bool) (out : CleanBuf) (e : List Char)
    (he : Separator ∉ e) (h : GoodBuf rooted out) : GoodBuf rooted (cleanStep rooted out e) := by
  unfold cleanStep
  split
  · exact h
  · split
    · exact h
    · split
      · rcases hout : out.elems with _ | ⟨x, rest⟩
        · simp only
          cases rooted
          · exact ⟨by simp [hout], by simp⟩
          · simpa using h
        · simp only
          refine ⟨fun y hy => h.1 y ?_, h.2⟩
          rw [hout]
          exact List.mem_cons_of_mem _ hy
      · rename_i h1 h2 h3
        refine ⟨?_, h.2⟩
        intro y hy
        rcases List.mem_cons.1 hy with hy | hy
        · rw [hy]; exact ⟨h1, he, h2, h3⟩
        · exact h.1 y hy

theorem foldl_cleanStep_good (rooted : Bool) (out : CleanBuf) (l : List (List Char))
    (hl : ∀ e ∈ l, Separator ∉ e) (h : GoodBuf rooted out) :
    GoodBuf rooted (l.foldl (cleanStep rooted) out) := by
  induction l generalizing out with
  | nil => exact h
  | cons e es ih =>
    exact ih _ (fun x hx => hl x (List.mem_cons_of_mem _ hx))
      (cleanStep_good rooted out e (hl e (List.mem_cons_self _ _)) h)

theorem head?_joinElems (e : List Char) (es : List (List Char)) (he : e ≠ []) :
    (joinElems (e :: es)).head? = e.head? := by
  cases es with
  | nil => rfl
  | cons e' es =>
    rw [joinElems_cons_cons]
    cases e with
    | nil => exact absurd rfl he
    | cons c cs => rfl

theorem cleanChars_unfold (path : List Char) :
    cleanChars path
      = (if path.head? = some Separator then [Separator] else [])
        ++ joinElems (List.replicate
            (((splitCore Separator path).1 :: (splitCore Separator path).2).foldl
              (cleanStep (decide (path.head? = some Separator))) ⟨0, []⟩).dotdot ['.', '.']
          ++ (((splitCore Separator path).1 :: (splitCore Separator path).2).foldl
              (cleanStep (decide (path.head? = some Separator))) ⟨0, []⟩).elems.reverse) := by
  simp [cleanChars]

theorem isRealElem_dotdot_free : Separator ∉ ['.', '.'] ∧ (['.', '.'] : List Char) ≠ [] := by
  decide

theorem cleanChars_fixed_unrooted (k : Nat) (es : List (List Char))
    (hes : ∀ e ∈ es, IsRealElem e)
    (hne : joinElems (List.replicate k ['.', '.'] ++ es.reverse) ≠ []) :
    cleanChars (joinElems (List.replicate k ['.', '.'] ++ es.reverse))
      = joinElems (List.replicate k ['.', '.'] ++ es.reverse) := by
  have hL : ∀ x ∈ List.replicate k ['.', '.'] ++ es.reverse, Separator ∉ x ∧ x ≠ [] := by
    intro x hx
    rcases List.mem_append.1 hx with hx | hx
    · rw [(List.mem_replicate.1 hx).2]; exact isRealElem_dotdot_free
    · have := hes x (List.mem_reverse.1 hx)
      exact ⟨this.2.1, this.1⟩
  rcases hLeq : List.replicate k ['.', '.'] ++ es.reverse with _ | ⟨e, es'⟩
  · rw [hLeq] at hne; exact absurd rfl hne
  · rw [hLeq] at hL
    have he := hL e (List.mem_cons_self _ _)
    have hhead : ¬ ((joinElems (e :: es')).head? = some Separator) := by
      rw [head?_joinElems e es' he.2]
      intro h
      exact he.1 (List.mem_of_mem_head? h)
    have hsplit := splitCore_joinElems e es' (fun x hx => (hL x hx).1)
    rw [cleanChars_unfold, hsplit]
    simp only [hhead, if_false, decide_False, List.nil_append]
    rw [← hLeq, List.foldl_append, foldl_cleanStep_dotdot,
      foldl_cleanStep_real false (0 + k) [] es.reverse
        (fun x hx => hes x (List.mem_reverse.1 hx))]
    simp

theorem cleanChars_fixed_rooted (es : List (List Char)) (hes : ∀ e ∈ es, IsRealElem e) :
    cleanChars (Separator :: joinElems es.reverse) = Separator :: joinElems es.reverse := by
  have hhead : (Separator :: joinElems es.reverse).head? = some Separator := rfl
  rw [cleanChars_unfold]
  simp only [hhead, if_true, decide_True]
  have hsplit : splitCore Separator (Separator :: joinElems es.reverse)
      = ([], (splitCore Separator (joinElems es.reverse)).1
          :: (splitCore Separator (joinElems es.reverse)).2) := by
    simp [splitCore]
  rw [hsplit]
  rcases hLeq : es.reverse with _ | ⟨e, es'⟩
  · have : es = [] := by simpa using hLeq
    subst this
    rfl
  · have hL : ∀ x ∈ e :: es', IsRealElem x := by
      intro x hx
      rw [← hLeq] at hx
      exact hes x (List.mem_reverse.1 hx)
    rw [splitCore_joinElems e es' (fun x hx => (hL x hx).2.1)]
    have hstep : cleanStep true ⟨0, []⟩ [] = ⟨0, []⟩ := rfl
    rw [List.foldl_cons, hstep, foldl_cleanStep_real true 0 [] (e :: es') hL]
    simp

theorem cleanChars_idem (path : List Char) (hne : cleanChars path ≠ []) :
    cleanChars (cleanChars path) = cleanChars path := by
  have hgood := foldl_cleanStep_good (decide (path.head? = some Separator)) ⟨0, []⟩
    ((splitCore Separator path).1 :: (splitCore Separator path).2)
    (by
      intro e he
      rcases List.mem_cons.1 he with h | h
      · rw [h]; exact (splitCore_no_sep Separator path).1
      · exact (splitCore_no_sep Separator path).2 e h)
    ⟨by simp, by simp⟩
  have hform := cleanChars_unfold path
  rw [hform] at hne ⊢
  by_cases hr : path.head? = some Separator
  · have hk := hgood.2 (by simp [hr])
    simp only [hr, if_true, decide_True] at hne hgood hk ⊢
    rw [hk]
    simp only [List.replicate_zero, List.nil_append, List.singleton_append]
    exact cleanChars_fixed_rooted _ hgood.1
  · simp only [hr, if_false, decide_False, List.nil_append] at hne hgood ⊢
    exact cleanChars_fixed_unrooted _ _ hgood.1 hne

theorem filepathClean_idem (path : String) :
    filepathClean (filepathClean path) = filepathClean path := by
  unfold filepathClean
  by_cases h : cleanChars path.data = []
  · simp only [h, if_true]
    decide
  · simp only [h, if_false]
    rw [cleanChars_idem path.data h]
    simp [h]

theorem filepathToSlash_eq (path : String) : filepathToSlash path = path := by
  simp [filepathToSlash, Separator]

theorem filepathClean_filepathJoin (a b : String) (hb : b ≠ "") :
    filepathClean (filepathJoin [a, b]) = filepathJoin [a, b] := by
  by_cases ha : a = ""
  · simp only [filepathJoin, List.dropWhile, ha, hb, decide_True, decide_False]
    exact filepathClean_idem _
  · simp only [filepathJoin, List.dropWhile, ha, decide_False]
    exact filepathClean_idem _

theorem init_absPath (dir : String) :
    (init dir).AbsPath = filepathJoin [(init dir).Path, (init dir).PackageName] := by
  simp only [init, filepathToSlash_eq]
  exact filepathClean_filepathJoin dir "model" (by decide)

theorem setterCall_absPath (config : Config) (call : SetterCall)
    (h : config.AbsPath = filepathJoin [config.Path, config.PackageName]) :
    (call.apply config).AbsPath
      = filepathJoin [(call.apply config).Path, (call.apply config).PackageName] := by
  cases call <;>
    simp [SetterCall.apply, SetPath, SetPackageName, SetDatabase, SetDNS, SetDriverName, h]

theorem setterCall_markers (config : Config) (call : SetterCall) :
    (call.apply config).UpdateTime = config.UpdateTime
      ∧ (call.apply config).CreateTime = config.CreateTime := by
  cases call <;>
    simp [SetterCall.apply, SetPath, SetPackageName, SetDatabase, SetDNS, SetDriverName]

theorem foldl_setterCall_markers (calls : List SetterCall) (config : Config) :
    (calls.foldl SetterCall.apply config).UpdateTime = config.UpdateTime
      ∧ (calls.foldl SetterCall.apply config).CreateTime = config.CreateTime := by
  induction calls generalizing config with
  | nil => exact ⟨rfl, rfl⟩
  | cons call calls ih =>
    rw [List.foldl_cons]
    exact ⟨(ih _).1.trans (setterCall_markers config call).1,
      (ih _).2.trans (setterCall_markers config call).2⟩

/-- In every configuration reachable through `init` and the setters the marker
names are the defaults, and there `autoTime` agrees with the described
behaviour. -/
theorem autoTime_eq_spec_of_reachable (dir : String) (calls : List SetterCall) (field : String) :
    autoTime field = specAutoTime (configAfter dir calls) field := by
  have h := foldl_setterCall_markers calls (init dir)
  unfold specAutoTime configAfter
  rw [h.1, h.2]
  rfl

/-! ## The claims on the configuration -/

/-- The marker fields of `Config` are written by `init` only: a configuration
with another update marker, such as `customMarkerConfig`, is reached by no
sequence of setter calls. -/
theorem configAfter_ne_customMarkerConfig (dir : String) (calls : List SetterCall) :
    configAfter dir calls ≠ customMarkerConfig := by
  intro h
  have hm := (foldl_setterCall_markers calls (init dir)).1
  have h1 : (configAfter dir calls).UpdateTime = "UpdateTime" := hm
  rw [h] at h1
  exact absurd h1 (by decide)

/-- Remark on the unread marker fields: `autoTime` does not look at `config`, so
in the configuration `customMarkerConfig`, which no run produces, it would
still answer for the literal names `UpdateTime` and `CreateTime`. -/
theorem autoTime_literal_markers :
    customMarkerConfig.UpdateTime = "ModifiedAt"
      ∧ customMarkerConfig.CreateTime = "CreateTime"
      ∧ autoTime "ModifiedAt" = ""
      ∧ specAutoTime customMarkerConfig "ModifiedAt" = "autoUpdateTime"
      ∧ autoTime "UpdateTime" = "autoUpdateTime"
      ∧ specAutoTime customMarkerConfig "UpdateTime" = "" := by
  decide

/-- C7: in every configuration of the program, that is, after `init` and any
sequence of setter calls, and for every field name, `autoTime` returns
`autoUpdateTime` when the name equals `Config.UpdateTime`, `autoCreateTime` when
it equals `Config.CreateTime`, and the empty string otherwise. -/
theorem autoTime_configured_markers (dir : String) (calls : List SetterCall) (field : String) :
    (field = (configAfter dir calls).UpdateTime → autoTime field = "autoUpdateTime")
      ∧ (field = (configAfter dir calls).CreateTime → autoTime field = "autoCreateTime")
      ∧ (field ≠ (configAfter dir calls).UpdateTime → field ≠ (configAfter dir calls).CreateTime
          → autoTime field = "")
      ∧ autoTime field = specAutoTime (configAfter dir calls) field := by
  have h := foldl_setterCall_markers calls (init dir)
  have hu : (configAfter dir calls).UpdateTime = "UpdateTime" := h.1
  have hc : (configAfter dir calls).CreateTime = "CreateTime" := h.2
  rw [hu, hc]
  refine ⟨?_, ?_, ?_, autoTime_eq_spec_of_reachable dir calls field⟩
  · intro hf; subst hf; rfl
  · intro hf; subst hf; rfl
  · intro h1 h2; simp [autoTime, h1, h2]

/-- C7, instance: after `SetPath("out")` and `SetDatabase("blog")` the create
marker is `CreateTime`, and `autoTime` answers `autoCreateTime` for it,
`autoUpdateTime` for `UpdateTime` and the empty string for `Title`. -/
theorem autoTime_configured_markers_witness :
    "CreateTime" = (configAfter "/work" [.setPath "out", .setDatabase "blog"]).CreateTime
      ∧ autoTime "CreateTime" = "autoCreateTime"
      ∧ "UpdateTime" = (configAfter "/work" [.setPath "out", .setDatabase "blog"]).UpdateTime
      ∧ autoTime "UpdateTime" = "autoUpdateTime"
      ∧ "Title" ≠ (configAfter "/work" [.setPath "out", .setDatabase "blog"]).UpdateTime
      ∧ "Title" ≠ (configAfter "/work" [.setPath "out", .setDatabase "blog"]).CreateTime
      ∧ autoTime "Title" = "" :=
  have hc : "CreateTime"
      = (configAfter "/work" [.setPath "out", .setDatabase "blog"]).CreateTime := by decide
  have hu : "UpdateTime"
      = (configAfter "/work" [.setPath "out", .setDatabase "blog"]).UpdateTime := by decide
  have h1 : "Title"
      ≠ (configAfter "/work" [.setPath "out", .setDatabase "blog"]).UpdateTime := by decide
  have h2 : "Title"
      ≠ (configAfter "/work" [.setPath "out", .setDatabase "blog"]).CreateTime := by decide
  ⟨hc,
    (autoTime_configured_markers "/work" [.setPath "out", .setDatabase "blog"] "CreateTime").2.1 hc,
    hu,
    (autoTime_configured_markers "/work" [.setPath "out", .setDatabase "blog"] "UpdateTime").1 hu,
    h1, h2,
    (autoTime_configured_markers "/work" [.setPath "out", .setDatabase "blog"] "Title").2.2.1 h1 h2⟩

/-- C9: in every configuration reached from the initial one by any sequence of
`SetPath`, `SetPackageName`, `SetDatabase`, `SetDNS` and `SetDriverName` calls,
`AbsPath` is `filepath.Join(Path, PackageName)`. -/
theorem configAfter_absPath (dir : String) (calls : List SetterCall) :
    (configAfter dir calls).AbsPath
      = filepathJoin [(configAfter dir calls).Path, (configAfter dir calls).PackageName] := by
  unfold configAfter
  generalize hc : init dir = config
  have hinv : config.AbsPath = filepathJoin [config.Path, config.PackageName] := by
    rw [← hc]; exact init_absPath dir
  clear hc
  induction calls generalizing config with
  | nil => exact hinv
  | cons call calls ih =>
    rw [List.foldl_cons]
    exact ih _ (setterCall_absPath config call hinv)

/-- C5, instance: the fields `id` (int) and `create_time` (datetime) give the
tags `id`, `createTime` and the fields `ID : int`, `CreateTime : time.Time`;
the tag of the normalized name `CreateTime` would be `createtime`. -/
theorem generateTagFields_spec_witness :
    (∀ f ∈ exampleFields, f.Type_ ∈ documentedTypes)
      ∧ generateTagFields UnicodeTables.identity exampleFields
          = .ok (["id", "createTime"],
              [ { Name := "ID", Desc := "", Type_ := "int", IsNull := "NO",
                  ColumnType := "int(11)", Length := 0 },
                { Name := "CreateTime", Desc := "", Type_ := "time.Time", IsNull := "YES",
                  ColumnType := "datetime", Length := 0 } ])
      ∧ tagFieldConvert UnicodeTables.identity "CreateTime" = .ok "createtime"
      ∧ ∃ tags fields', generateTagFields UnicodeTables.identity exampleFields = .ok (tags, fields')
          ∧ List.Forall₂ (fun f t => tagFieldConvert UnicodeTables.identity f.Name = .ok t)
              exampleFields tags
          ∧ List.Forall₂ (fun f g => g.Name = convert UnicodeTables.identity f.Name
              ∧ typeConvert f.Type_ = .ok g.Type_
              ∧ g.Desc = f.Desc ∧ g.IsNull = f.IsNull ∧ g.ColumnType = f.ColumnType
              ∧ g.Length = f.Length) exampleFields fields' :=
  ⟨by decide, rfl, rfl, generateTagFields_spec UnicodeTables.identity exampleFields (by decide)⟩

theorem splitCore_append_last (sep : Char) (P b : List Char) (hb : sep ∉ b) :
    (splitCore sep (P ++ sep :: b)).1 :: (splitCore sep (P ++ sep :: b)).2
      = ((splitCore sep P).1 :: (splitCore sep P).2) ++ [b] := by
  induction P with
  | nil => simp [splitCore, splitCore_of_no_sep sep b hb]
  | cons c cs ih =>
    simp only [List.cons_append, List.cons.injEq] at ih ⊢
    by_cases hc : c = sep
    · simp [splitCore, hc, ih.1, ih.2]
    · simp [splitCore, hc, ih.1, ih.2]

theorem joinElems_append_singleton (M : List (List Char)) (b : List Char) :
    joinElems (M ++ [b]) = if M = [] then b else joinElems M ++ Separator :: b := by
  induction M with
  | nil => rfl
  | cons e es ih =>
    cases es with
    | nil => simp [joinElems]
    | cons e' es' =>
      simp only [List.cons_append, joinElems_cons_cons] at ih ⊢
      simp [ih]

theorem cleanChars_last_real (X b : List Char) (hb : IsRealElem b)
    (hX : X = [] ∨ ∃ P, X = P ++ [Separator]) :
    ∃ Y, cleanChars (X ++ b) = Y ++ b ∧ (Y = [] ∨ ∃ Z, Y = Z ++ [Separator]) := by
  have hsplit : ∃ E, (splitCore Separator (X ++ b)).1 :: (splitCore Separator (X ++ b)).2
      = E ++ [b] := by
    rcases hX with hX | ⟨P, hP⟩
    · exact ⟨[], by simp [hX, splitCore_of_no_sep Separator b hb.2.1]⟩
    · refine ⟨(splitCore Separator P).1 :: (splitCore Separator P).2, ?_⟩
      rw [hP, List.append_assoc, List.singleton_append]
      exact splitCore_append_last Separator P b hb.2.1
  obtain ⟨E, hE⟩ := hsplit
  rw [cleanChars_unfold, hE, List.foldl_append, List.foldl_cons, List.foldl_nil,
    cleanStep_real _ _ _ hb]
  generalize List.foldl (cleanStep (decide ((X ++ b).head? = some Separator))) ⟨0, []⟩ E = out
  generalize hpre : (if (X ++ b).head? = some Separator then [Separator] else []) = pre
  have hpre' : pre = [] ∨ pre = [Separator] := by
    rw [← hpre]; split
    · exact Or.inr rfl
    · exact Or.inl rfl
  simp only [List.reverse_cons, ← List.append_assoc]
  rw [joinElems_append_singleton]
  generalize List.replicate out.dotdot ['.', '.'] ++ out.elems.reverse = M
  by_cases hM : M = []
  · rw [if_pos hM]
    rcases hpre' with h | h
    · exact ⟨[], by simp [h], Or.inl rfl⟩
    · exact ⟨[Separator], by simp [h], Or.inr ⟨[], rfl⟩⟩
  · rw [if_neg hM]
    exact ⟨pre ++ joinElems M ++ [Separator], by simp, Or.inr ⟨_, rfl⟩⟩

theorem filepathBase_of_suffix (Y b : List Char) (hY : Y = [] ∨ ∃ Z, Y = Z ++ [Separator])
    (hb1 : b ≠ []) (hb2 : Separator ∉ b) : filepathBase ⟨Y ++ b⟩ = ⟨b⟩ := by
  have hne : (⟨Y ++ b⟩ : String) ≠ "" := by
    intro h
    have h' := congrArg String.data h
    simp only [List.append_eq_nil] at h'
    exact hb1 (by simpa using h'.2)
  have hall : ∀ c ∈ b.reverse, (!isPathSeparator c) = true := by
    intro c hc
    have : c ≠ Separator := fun h => hb2 (h ▸ List.mem_reverse.1 hc)
    simp [isPathSeparator, this]
  have hdrop : (b.reverse ++ Y.reverse).dropWhile isPathSeparator = b.reverse ++ Y.reverse := by
    rcases hrev : b.reverse with _ | ⟨c, cs⟩
    · exact absurd (List.reverse_eq_nil_iff.1 hrev) hb1
    · have hc := hall c (by rw [hrev]; exact List.mem_cons_self _ _)
      simp only [Bool.not_eq_true'] at hc
      simp [List.dropWhile, hc]
  have htake : (b.reverse ++ Y.reverse).takeWhile (fun c => !isPathSeparator c) = b.reverse := by
    rw [List.takeWhile_append_of_pos hall]
    rcases hY with hY | ⟨Z, hZ⟩
    · simp [hY]
    · simp [hZ, List.takeWhile, isPathSeparator]
  simp only [filepathBase, hne, if_false, List.reverse_append, hdrop, htake, List.reverse_reverse,
    hb1]

theorem filepathJoin_form (p b : String) (hb : IsRealElem b.data) :
    ∃ Y, (filepathJoin [p, b]).data = Y ++ b.data ∧ (Y = [] ∨ ∃ Z, Y = Z ++ [Separator]) := by
  have hbne : b ≠ "" := by
    intro h
    exact hb.1 (by rw [h])
  have key : ∀ X : List Char, (X = [] ∨ ∃ P, X = P ++ [Separator]) →
      ∃ Y, (filepathClean ⟨X ++ b.data⟩).data = Y ++ b.data
        ∧ (Y = [] ∨ ∃ Z, Y = Z ++ [Separator]) := by
    intro X hX
    obtain ⟨Y, hY, hYform⟩ := cleanChars_last_real X b.data hb hX
    have hne : cleanChars (X ++ b.data) ≠ [] := by
      rw [hY]
      intro h
      exact hb.1 (List.append_eq_nil.1 h).2
    refine ⟨Y, ?_, hYform⟩
    unfold filepathClean
    rw [if_neg hne, hY]
  by_cases hp : p = ""
  · have : filepathJoin [p, b] = filepathClean ⟨[] ++ b.data⟩ := by
      simp [filepathJoin, List.dropWhile, hp, hbne, String.intercalate, String.intercalate.go]
    rw [this]
    exact key [] (Or.inl rfl)
  · have : filepathJoin [p, b] = filepathClean ⟨(p.data ++ [Separator]) ++ b.data⟩ := by
      simp only [filepathJoin, List.dropWhile, hp, decide_False]
      congr 1
    rw [this]
    exact key _ (Or.inr ⟨_, rfl⟩)

theorem filepathBase_filepathJoin (p b : String) (hb : IsRealElem b.data) :
    filepathBase (filepathJoin [p, b]) = b := by
  obtain ⟨Y, hY, hYform⟩ := filepathJoin_form p b hb
  have h : filepathJoin [p, b] = ⟨Y ++ b.data⟩ := String.ext hY
  rw [h, filepathBase_of_suffix Y b.data hYform hb.1 hb.2.1]

/-! ## Lemmas on the bundle-building loop -/

theorem generateTagFields_ok (U : UnicodeTables) (fields : List Field)
    (h : ∀ f ∈ fields, f.Type_ ∈ documentedTypes) :
    ∃ tags fields', generateTagFields U fields = .ok (tags, fields') := by
  obtain ⟨tags, fields', hrun, _, _⟩ := generateTagFieldsLoop_spec U fields h [] []
  exact ⟨tags, fields', by simpa [generateTagFields] using hrun⟩

theorem getElem?_append_length {α : Type} (l : List α) (a : α) (r : List α) :
    (l ++ a :: r)[l.length]? = some a := by
  induction l with
  | nil => simp
  | cons x xs ih => simpa using ih

theorem generateLoop_spec (U : UnicodeTables) (config : Config)
    (getColumnsInfo : String → String → List Field) (todo : List TableInfo)
    (h : ∀ t ∈ todo, ∀ f ∈ getColumnsInfo config.TableSchema t.Name, f.Type_ ∈ documentedTypes)
    (done : List TableInfo) (out : List TableOutInfo) :
    ∃ bundles,
      generateLoop U config getColumnsInfo (List.range' done.length todo.length)
          (done ++ todo) out
        = .ok (done ++ todo.map (fun t => { t with Name := convert U t.Name }), out ++ bundles)
      ∧ List.Forall₂ (fun t b =>
          b.OriginTableName = t.Name
          ∧ b.PackageName = config.PackageName
          ∧ generateTagFields U (getColumnsInfo config.TableSchema t.Name)
              = .ok (b.TagFields, b.Fields)
          ∧ (done ++ todo.map (fun t => { t with Name := convert U t.Name }))[b.TableInfo]?
              = some { Name := convert U t.Name, Comment := t.Comment }) todo bundles := by
  induction todo generalizing done out with
  | nil => exact ⟨[], by simp [generateLoop], List.Forall₂.nil⟩
  | cons t ts ih =>
    obtain ⟨tags, fields', hgen⟩ := generateTagFields_ok U
      (getColumnsInfo config.TableSchema t.Name) (h t (List.mem_cons_self _ _))
    obtain ⟨bundles, hrun, hall⟩ := ih (fun x hx => h x (List.mem_cons_of_mem _ hx))
      (done ++ [{ t with Name := convert U t.Name }])
      (out ++ [{ OriginTableName := t.Name, PackageName := config.PackageName,
                 TableInfo := done.length, TagFields := tags, Fields := fields' }])
    have hheap : (done ++ [{ t with Name := convert U t.Name }]
        ++ ts.map (fun t => { t with Name := convert U t.Name }))
        = done ++ (t :: ts).map (fun t => { t with Name := convert U t.Name }) := by
      simp
    rw [hheap] at hrun hall
    refine ⟨{ OriginTableName := t.Name, PackageName := config.PackageName,
              TableInfo := done.length, TagFields := tags, Fields := fields' } :: bundles,
      ?_, List.Forall₂.cons ⟨rfl, rfl, hgen, ?_⟩ hall⟩
    · have hget : (done ++ t :: ts)[done.length]? = some t := getElem?_append_length _ _ _
      have hset : (done ++ t :: ts).set done.length { t with Name := convert U t.Name }
          = done ++ [{ t with Name := convert U t.Name }] ++ ts := by simp
      have hlen : (done ++ [{ t with Name := convert U t.Name }]).length = done.length + 1 := by
        simp
      rw [hlen] at hrun
      simp only [List.length_cons, List.range'_succ, generateLoop, hget, hgen, bind,
        Except.bind, hset]
      rw [hrun]
      simp
    · exact getElem?_append_length _ _ _

theorem filepathBase_stagedFile (dir : String) (b : TableOutInfo)
    (h : IsRealElem b.OriginTableName.data) :
    filepathBase (stagedFile dir b) = b.OriginTableName ++ ".go" := by
  obtain ⟨Y, hY, hYform⟩ := filepathJoin_form dir b.OriginTableName h
  have hdata : stagedFile dir b = ⟨Y ++ (b.OriginTableName ++ ".go").data⟩ := by
    apply String.ext
    simp [stagedFile, String.data_append, hY]
  have hgo : Separator ∉ (".go" : String).data := by decide
  rw [hdata, filepathBase_of_suffix Y _ hYform]
  · simp [String.data_append]
  · intro hmem
    rw [String.data_append] at hmem
    rcases List.mem_append.1 hmem with hm | hm
    · exact h.2.1 hm
    · exact hgo hm

theorem generateTagFieldsLoop_error (U : UnicodeTables) (fields : List Field)
    (h : ∃ f ∈ fields, f.Type_ ∉ documentedTypes) (acc : List String) (done : List Field) :
    ∃ f ∈ fields, f.Type_ ∉ documentedTypes
      ∧ generateTagFieldsLoop U fields acc done = .error (f.Type_ ++ " not convert") := by
  induction fields generalizing acc done with
  | nil =>
    obtain ⟨f, hf, _⟩ := h
    cases hf
  | cons f fs ih =>
    have htag := tagFieldConvert_eq U f.Name
    by_cases hf : f.Type_ ∈ documentedTypes
    · obtain ⟨ty, hty⟩ := typeConvert_of_documented f.Type_ hf
      have hrest : ∃ g ∈ fs, g.Type_ ∉ documentedTypes := by
        obtain ⟨g, hg, hbad⟩ := h
        rcases List.mem_cons.1 hg with hgf | hgf
        · rw [hgf] at hbad; exact absurd hf hbad
        · exact ⟨g, hgf, hbad⟩
      obtain ⟨g, hg, hbad, hrun⟩ := ih hrest (acc ++ [_])
        (done ++ [{ f with Name := convert U f.Name, Type_ := ty }])
      refine ⟨g, List.mem_cons_of_mem _ hg, hbad, ?_⟩
      simp only [generateTagFieldsLoop, htag, hty, bind, Except.bind]
      rw [hrun]
    · refine ⟨f, List.mem_cons_self _ _, hf, ?_⟩
      simp only [generateTagFieldsLoop, htag, typeConvert_of_not_documented f.Type_ hf, bind,
        Except.bind]

theorem generateLoop_error (U : UnicodeTables) (config : Config)
    (getColumnsInfo : String → String → List Field) (todo : List TableInfo)
    (h : ∃ t ∈ todo, ∃ f ∈ getColumnsInfo config.TableSchema t.Name,
      f.Type_ ∉ documentedTypes)
    (done : List TableInfo) (out : List TableOutInfo) :
    ∃ t ∈ todo, ∃ f ∈ getColumnsInfo config.TableSchema t.Name, f.Type_ ∉ documentedTypes
      ∧ generateLoop U config getColumnsInfo (List.range' done.length todo.length)
          (done ++ todo) out = .error (f.Type_ ++ " not convert") := by
  induction todo generalizing done out with
  | nil =>
    obtain ⟨t, ht, _⟩ := h
    cases ht
  | cons t ts ih =>
    have hget : (done ++ t :: ts)[done.length]? = some t := getElem?_append_length _ _ _
    by_cases hall : ∀ f ∈ getColumnsInfo config.TableSchema t.Name, f.Type_ ∈ documentedTypes
    · obtain ⟨tags, fields', hgen⟩ := generateTagFields_ok U
        (getColumnsInfo config.TableSchema t.Name) hall
      have hrest : ∃ x ∈ ts, ∃ f ∈ getColumnsInfo config.TableSchema x.Name,
          f.Type_ ∉ documentedTypes := by
        obtain ⟨x, hx, f, hf, hbad⟩ := h
        rcases List.mem_cons.1 hx with hxt | hxt
        · rw [hxt] at hf; exact absurd (hall f hf) hbad
        · exact ⟨x, hxt, f, hf, hbad⟩
      obtain ⟨x, hx, f, hf, hbad, hrun⟩ := ih hrest
        (done ++ [{ t with Name := convert U t.Name }])
        (out ++ [{ OriginTableName := t.Name, PackageName := config.PackageName,
                   TableInfo := done.length, TagFields := tags, Fields := fields' }])
      refine ⟨x, List.mem_cons_of_mem _ hx, f, hf, hbad, ?_⟩
      have hset : (done ++ t :: ts).set done.length { t with Name := convert U t.Name }
          = done ++ [{ t with Name := convert U t.Name }] ++ ts := by simp
      have hlen : (done ++ [{ t with Name := convert U t.Name }]).length = done.length + 1 := by
        simp
      rw [hlen] at hrun
      simp only [List.length_cons, List.range'_succ, generateLoop, hget, hgen, bind,
        Except.bind, hset]
      rw [hrun]
    · have hbad : ∃ f ∈ getColumnsInfo config.TableSchema t.Name, f.Type_ ∉ documentedTypes := by
        by_contra hno
        exact hall (fun f hf => by
          by_contra hnot
          exact hno ⟨f, hf, hnot⟩)
      obtain ⟨f, hf, hnot, hrun⟩ := generateTagFieldsLoop_error U
        (getColumnsInfo config.TableSchema t.Name) hbad [] []
      refine ⟨t, List.mem_cons_self _ _, f, hf, hnot, ?_⟩
      have hgen : generateTagFields U (getColumnsInfo config.TableSchema t.Name)
          = .error (f.Type_ ++ " not convert") := hrun
      simp only [List.length_cons, List.range'_succ, generateLoop, hget, hgen, bind,
        Except.bind]

theorem filepathBase_separator (path : String)
    (h : Separator ∈ (filepathBase path).data) :
    filepathBase path = String.singleton Separator := by
  unfold filepathBase at h ⊢
  by_cases hp : path = ""
  · rw [if_pos hp] at h
    exact absurd h (by decide)
  · rw [if_neg hp] at h ⊢
    simp only at h ⊢
    by_cases hl : ((path.data.reverse.dropWhile isPathSeparator).takeWhile
        (fun c => !isPathSeparator c)).reverse = []
    · rw [if_pos hl]
    · rw [if_neg hl] at h
      have hmem := List.mem_takeWhile_imp (List.mem_reverse.1 h)
      simp [isPathSeparator] at hmem

theorem filepathBase_ne_of_separator (path name : String) (h : Separator ∈ name.data) :
    filepathBase path ≠ name ++ ".go" := by
  intro heq
  have hsep : Separator ∈ (filepathBase path).data := by
    rw [heq, String.data_append]
    exact List.mem_append_left _ h
  have hbase := filepathBase_separator path hsep
  rw [heq] at hbase
  have hlen : (name.data ++ (".go" : String).data).length = 1 := by
    rw [← String.data_append, hbase]
    rfl
  rw [List.length_append] at hlen
  have h1 : (".go" : String).data.length = 3 := rfl
  omega

/-! ## The claim on the bundle-building loop -/

/-- C8 (as stated, refuted): for the table `user` with a column of type `json`
the loop produces no bundle at all and stops with the panic `json not convert`;
and for the table `a/b` the bundle is staged as `/w/model42/a/b.go`, a file
whose name is `b.go`, not the raw name followed by `.go`. -/
theorem generateBundles_json_aborts :
    generateBundles UnicodeTables.identity (init "/w") jsonColumns exampleTables
        = .error "json not convert"
      ∧ (¬ ∃ r, generateBundles UnicodeTables.identity (init "/w") jsonColumns exampleTables
          = .ok r)
      ∧ generateBundles UnicodeTables.identity (init "/w") exampleColumns slashTables
          = .ok ([{ Name := "A/B", Comment := "t" }], [slashBundle])
      ∧ slashBundle.OriginTableName = "a/b"
      ∧ stagedFile "/w/model42" slashBundle = "/w/model42/a/b.go"
      ∧ filepathBase (stagedFile "/w/model42" slashBundle) = "b.go"
      ∧ filepathBase (stagedFile "/w/model42" slashBundle) ≠ "a/b" ++ ".go" := by
  have h : generateBundles UnicodeTables.identity (init "/w") jsonColumns exampleTables
      = .error "json not convert" := rfl
  refine ⟨h, ?_, rfl, rfl, by decide, by decide, by decide⟩
  rintro ⟨r, hr⟩
  rw [h] at hr
  cases hr

/-- C8 (amended): when every column of every returned table has a type of the
type table, the loop produces exactly one bundle per table, in the same order;
the bundle's `OriginTableName` is the table's raw name, its staged file is the
staging directory joined with the raw name, followed by `.go`, whose file name
is the raw name followed by `.go` when the raw name is a file name and is not
when the raw name contains the path separator; the `TableInfo` record the
bundle points to has, when the loop is over, `Name = convert(raw name)` and its
comment unchanged; the fields and tags of the bundle are those of
`generateTagFields` on the table's columns.  When some column of some table has
a type outside the table, the loop panics with that type's `not convert`
message and produces no bundle. -/
theorem generateBundles_spec (U : UnicodeTables) (config : Config)
    (getColumnsInfo : String → String → List Field) (tableInfos : List TableInfo)
    (dir : String) :
    ((∀ t ∈ tableInfos, ∀ f ∈ getColumnsInfo config.TableSchema t.Name,
        f.Type_ ∈ documentedTypes) →
      ∃ heap bundles, generateBundles U config getColumnsInfo tableInfos = .ok (heap, bundles)
        ∧ List.Forall₂ (fun t b =>
            b.OriginTableName = t.Name
            ∧ stagedFile dir b = filepathJoin [dir, t.Name] ++ ".go"
            ∧ (IsRealElem t.Name.data → filepathBase (stagedFile dir b) = t.Name ++ ".go")
            ∧ (Separator ∈ t.Name.data → filepathBase (stagedFile dir b) ≠ t.Name ++ ".go")
            ∧ heap[b.TableInfo]? = some { Name := convert U t.Name, Comment := t.Comment }
            ∧ b.PackageName = config.PackageName
            ∧ generateTagFields U (getColumnsInfo config.TableSchema t.Name)
                = .ok (b.TagFields, b.Fields)) tableInfos bundles)
      ∧ ((∃ t ∈ tableInfos, ∃ f ∈ getColumnsInfo config.TableSchema t.Name,
            f.Type_ ∉ documentedTypes) →
          ∃ t ∈ tableInfos, ∃ f ∈ getColumnsInfo config.TableSchema t.Name,
            f.Type_ ∉ documentedTypes
            ∧ generateBundles U config getColumnsInfo tableInfos
                = .error (f.Type_ ++ " not convert")) := by
  constructor
  · intro h
    obtain ⟨bundles, hrun, hall⟩ := generateLoop_spec U config getColumnsInfo tableInfos h [] []
    refine ⟨tableInfos.map (fun t => { t with Name := convert U t.Name }), bundles, ?_, ?_⟩
    · simpa [generateBundles, List.range_eq_range'] using hrun
    · refine List.Forall₂.imp ?_ hall
      intro t b hb
      obtain ⟨h1, h2, h3, h4⟩ := hb
      refine ⟨h1, by rw [stagedFile, h1], ?_, ?_, by simpa using h4, h2, h3⟩
      · intro hreal
        rw [filepathBase_stagedFile dir b (by rw [h1]; exact hreal), h1]
      · intro hsep
        exact filepathBase_ne_of_separator _ _ hsep
  · intro h
    obtain ⟨t, ht, f, hf, hbad, hrun⟩ :=
      generateLoop_error U config getColumnsInfo tableInfos h [] []
    exact ⟨t, ht, f, hf, hbad, by simpa [generateBundles, List.range_eq_range'] using hrun⟩

/-- C8 (amended), instance: the table `user` with the columns `id` and
`create_time` gives one bundle with `OriginTableName = user`, staged as
`user.go`, whose record is named `User` with the comment unchanged; with a
`json` column the loop panics with `json not convert`. -/
theorem generateBundles_spec_witness :
    (∀ t ∈ exampleTables, ∀ f ∈ exampleColumns (init "/w").TableSchema t.Name,
        f.Type_ ∈ documentedTypes)
      ∧ generateBundles UnicodeTables.identity (init "/w") exampleColumns exampleTables
          = .ok ([{ Name := "User", Comment := "User table" }],
              [{ OriginTableName := "user", PackageName := "model", TableInfo := 0,
                 Fields :=
                  [ { Name := "ID", Desc := "", Type_ := "int", IsNull := "NO",
                      ColumnType := "int(11)", Length := 0 },
                    { Name := "CreateTime", Desc := "", Type_ := "time.Time", IsNull := "YES",
                      ColumnType := "datetime", Length := 0 } ],
                 TagFields := ["id", "createTime"] }])
      ∧ filepathJoin ["/w/model42", "user"] ++ ".go" = "/w/model42/user.go"
      ∧ (∃ heap bundles,
          generateBundles UnicodeTables.identity (init "/w") exampleColumns exampleTables
            = .ok (heap, bundles)
          ∧ List.Forall₂ (fun t b =>
              b.OriginTableName = t.Name
              ∧ stagedFile "/w/model42" b = filepathJoin ["/w/model42", t.Name] ++ ".go"
              ∧ (IsRealElem t.Name.data
                  → filepathBase (stagedFile "/w/model42" b) = t.Name ++ ".go")
              ∧ (Separator ∈ t.Name.data
                  → filepathBase (stagedFile "/w/model42" b) ≠ t.Name ++ ".go")
              ∧ heap[b.TableInfo]?
                  = some { Name := convert UnicodeTables.identity t.Name, Comment := t.Comment }
              ∧ b.PackageName = (init "/w").PackageName
              ∧ generateTagFields UnicodeTables.identity
                  (exampleColumns (init "/w").TableSchema t.Name)
                  = .ok (b.TagFields, b.Fields)) exampleTables bundles)
      ∧ (∃ t ∈ exampleTables, ∃ f ∈ jsonColumns (init "/w").TableSchema t.Name,
          f.Type_ ∉ documentedTypes)
      ∧ (∃ t ∈ exampleTables, ∃ f ∈ jsonColumns (init "/w").TableSchema t.Name,
          f.Type_ ∉ documentedTypes
          ∧ generateBundles UnicodeTables.identity (init "/w") jsonColumns exampleTables
              = .error (f.Type_ ++ " not convert")) :=
  have hbad : ∃ t ∈ exampleTables, ∃ f ∈ jsonColumns (init "/w").TableSchema t.Name,
      f.Type_ ∉ documentedTypes :=
    ⟨_, List.mem_cons_self _ _, _, List.mem_cons_self _ _, by decide⟩
  ⟨by decide, rfl, by decide,
    (generateBundles_spec UnicodeTables.identity (init "/w") exampleColumns exampleTables
      "/w/model42").1 (by decide),
    hbad,
    (generateBundles_spec UnicodeTables.identity (init "/w") jsonColumns exampleTables
      "/w/model42").2 hbad⟩

/-! ## Lemmas on the promotion step -/

theorem getFileAndDirList_base (tree : DirTree) (hwf : tree.WellFormed) (path : String)
    (l : List String) (hl : getFileAndDirList tree path = .ok l) :
    ∀ f ∈ l, IsRealElem (filepathBase f).data := by
  induction tree generalizing path l with
  | nil =>
    simp only [getFileAndDirList, Except.ok.injEq] at hl
    subst hl
    simp
  | file name data rest ih =>
    cases hrest : getFileAndDirList rest path with
    | error e => simp [getFileAndDirList, hrest, bind, Except.bind] at hl
    | ok res =>
      simp only [getFileAndDirList, hrest, bind, Except.bind, Except.ok.injEq] at hl
      subst hl
      intro f hf
      rcases List.mem_cons.1 hf with h | h
      · rw [h, filepathBase_filepathJoin path name hwf.1]; exact hwf.1
      · exact ih hwf.2 path res hrest f h
  | dir name sub rest ihsub ihrest =>
    cases hsub : getFileAndDirList sub (filepathJoin [path, name]) with
    | error e => simp [getFileAndDirList, hsub, bind, Except.bind] at hl
    | ok list =>
      cases hrest : getFileAndDirList rest path with
      | error e => simp [getFileAndDirList, hsub, hrest, bind, Except.bind] at hl
      | ok res =>
        simp only [getFileAndDirList, hsub, hrest, bind, Except.bind, Except.ok.injEq] at hl
        subst hl
        intro f hf
        rcases List.mem_append.1 hf with h | h
        · exact ihsub hwf.2.1 _ list hsub f h
        · exact ihrest hwf.2.2 path res hrest f h
  | unreadableDir name rest _ =>
    simp [getFileAndDirList] at hl

theorem writeFile_keys_nodup (files : Files) (name data : String)
    (h : (files.map Prod.fst).Nodup) : ((writeFile files name data).map Prod.fst).Nodup := by
  simp only [writeFile, List.map_cons, List.nodup_cons]
  refine ⟨?_, ?_⟩
  · intro hmem
    obtain ⟨e, he, hname⟩ := List.mem_map.1 hmem
    have := (List.mem_filter.1 he).2
    simp [hname] at this
  · exact List.Nodup.sublist (List.Sublist.map _ (List.filter_sublist _)) h

theorem moveDirLoop_inv (tree : DirTree) (canWrite : String → Bool) (oldPath newPath : String)
    (rest : List String) (files : Files) (S : List String) (final : Files)
    (hinv1 : ∀ e ∈ files, ∃ f ∈ S, e.1 = filepathJoin [newPath, filepathBase f]
      ∧ readFile tree oldPath f = some e.2)
    (hinv2 : ∀ f ∈ S, filepathJoin [newPath, filepathBase f] ∈ files.map Prod.fst)
    (hinv3 : (files.map Prod.fst).Nodup)
    (hrun : moveDirLoop tree canWrite oldPath newPath rest files = (none, final)) :
    (∀ e ∈ final, ∃ f ∈ S ++ rest, e.1 = filepathJoin [newPath, filepathBase f]
        ∧ readFile tree oldPath f = some e.2)
      ∧ (∀ f ∈ S ++ rest, filepathJoin [newPath, filepathBase f] ∈ final.map Prod.fst)
      ∧ (final.map Prod.fst).Nodup := by
  induction rest generalizing files S with
  | nil =>
    simp only [moveDirLoop, Prod.mk.injEq, true_and] at hrun
    subst hrun
    rw [List.append_nil]
    exact ⟨hinv1, hinv2, hinv3⟩
  | cons f rest ih =>
    cases hread : readFile tree oldPath f with
    | none => simp [moveDirLoop, hread] at hrun
    | some data =>
      by_cases hw : canWrite (filepathJoin [newPath, filepathBase f]) = true
      · simp only [moveDirLoop, hread, hw, if_true] at hrun
        have h := ih (writeFile files (filepathJoin [newPath, filepathBase f]) data) (S ++ [f])
          (by
            intro e he
            rcases List.mem_cons.1 he with h | h
            · exact ⟨f, by simp, by rw [h], by rw [h]; exact hread⟩
            · obtain ⟨g, hg, hg'⟩ := hinv1 e (List.mem_filter.1 h).1
              exact ⟨g, List.mem_append_left _ hg, hg'⟩)
          (by
            intro g hg
            by_cases hgf : filepathJoin [newPath, filepathBase g]
                = filepathJoin [newPath, filepathBase f]
            · rw [hgf]; simp [writeFile]
            · rcases List.mem_append.1 hg with h | h
              · obtain ⟨e, he, hname⟩ := List.mem_map.1 (hinv2 g h)
                refine List.mem_map.2 ⟨e, List.mem_cons_of_mem _ (List.mem_filter.2 ⟨he, ?_⟩), hname⟩
                simp [hname, hgf]
              · have : g = f := by simpa using h
                exact absurd (by rw [this]) hgf)
          (writeFile_keys_nodup files _ data hinv3) hrun
        rw [List.append_assoc, List.singleton_append] at h
        exact h
      · simp [moveDirLoop, hread, hw] at hrun

theorem getFileAndDirList_names (tree : DirTree) (hwf : tree.WellFormed) (path : String)
    (l : List String) (hl : getFileAndDirList tree path = .ok l) (n : String) :
    n ∈ l.map filepathBase ↔ ∃ d, tree.HasFile n d := by
  induction tree generalizing path l with
  | nil =>
    simp only [getFileAndDirList, Except.ok.injEq] at hl
    subst hl
    constructor
    · intro h; cases h
    · rintro ⟨d, h⟩; cases h
  | file name data rest ih =>
    cases hrest : getFileAndDirList rest path with
    | error e => simp [getFileAndDirList, hrest, bind, Except.bind] at hl
    | ok res =>
      simp only [getFileAndDirList, hrest, bind, Except.bind, Except.ok.injEq] at hl
      subst hl
      rw [List.map_cons, filepathBase_filepathJoin path name hwf.1, List.mem_cons]
      constructor
      · rintro (h | h)
        · exact ⟨data, h ▸ DirTree.HasFile.here name data rest⟩
        · obtain ⟨d, hd⟩ := (ih hwf.2 path res hrest).1 h
          exact ⟨d, DirTree.HasFile.afterFile hd⟩
      · rintro ⟨d, h⟩
        cases h with
        | here => exact Or.inl rfl
        | afterFile h' => exact Or.inr ((ih hwf.2 path res hrest).2 ⟨d, h'⟩)
  | dir name sub rest ihsub ihrest =>
    cases hsub : getFileAndDirList sub (filepathJoin [path, name]) with
    | error e => simp [getFileAndDirList, hsub, bind, Except.bind] at hl
    | ok list =>
      cases hrest : getFileAndDirList rest path with
      | error e => simp [getFileAndDirList, hsub, hrest, bind, Except.bind] at hl
      | ok res =>
        simp only [getFileAndDirList, hsub, hrest, bind, Except.bind, Except.ok.injEq] at hl
        subst hl
        rw [List.map_append, List.mem_append]
        constructor
        · rintro (h | h)
          · obtain ⟨d, hd⟩ := (ihsub hwf.2.1 _ list hsub).1 h
            exact ⟨d, DirTree.HasFile.inDir hd⟩
          · obtain ⟨d, hd⟩ := (ihrest hwf.2.2 path res hrest).1 h
            exact ⟨d, DirTree.HasFile.afterDir hd⟩
        · rintro ⟨d, h⟩
          cases h with
          | inDir h' => exact Or.inl ((ihsub hwf.2.1 _ list hsub).2 ⟨d, h'⟩)
          | afterDir h' => exact Or.inr ((ihrest hwf.2.2 path res hrest).2 ⟨d, h'⟩)
  | unreadableDir name rest _ =>
    simp [getFileAndDirList] at hl

theorem readFile_hasFile (tree : DirTree) (hwf : tree.WellFormed) (path file data : String)
    (h : readFile tree path file = some data) :
    tree.HasFile (filepathBase file) (some data) := by
  induction tree generalizing path with
  | nil => simp [readFile] at h
  | file name d rest ih =>
    by_cases hp : filepathJoin [path, name] = file
    · simp only [readFile, hp, if_true] at h
      rw [← hp, filepathBase_filepathJoin path name hwf.1, ← h]
      exact DirTree.HasFile.here name d rest
    · simp only [readFile, hp, if_false] at h
      exact DirTree.HasFile.afterFile (ih hwf.2 path h)
  | dir name sub rest ihsub ihrest =>
    cases hsub : readFile sub (filepathJoin [path, name]) file with
    | some d' =>
      simp only [readFile, hsub, Option.some.injEq] at h
      subst h
      exact DirTree.HasFile.inDir (ihsub hwf.2.1 _ hsub)
    | none =>
      simp only [readFile, hsub] at h
      exact DirTree.HasFile.afterDir (ihrest hwf.2.2 path h)
  | unreadableDir name rest ih =>
    simp only [readFile] at h
    exact DirTree.HasFile.afterUnreadable (ih hwf.2 path h)

/-! ## The claim on the promotion step -/

/-- C10: for a staged tree and an empty destination, when `moveDir` returns
without error the destination holds plain files directly inside it, no two
under one name: each is `newPath` joined with the base name of a file found by
the walk `getFileAndDirList` and has the content of that staged file; the walk
finds the non-directory files of every depth of the tree, so the set of file
names of the destination is exactly the set of names of all non-directory files
anywhere in the staged tree, and each destination file has the content of a
staged file of that name. -/
theorem moveDir_flattens (tree : DirTree) (canWrite : String → Bool)
    (oldPath newPath : String) (files : Files) (hwf : tree.WellFormed)
    (hrun : moveDir tree canWrite [] oldPath newPath = .ok (none, files)) :
    ∃ fileList, getFileAndDirList tree oldPath = .ok fileList
      ∧ (∀ e ∈ files, ∃ f ∈ fileList,
          e.1 = filepathJoin [newPath, filepathBase f]
          ∧ IsRealElem (filepathBase f).data
          ∧ filepathBase e.1 = filepathBase f
          ∧ readFile tree oldPath f = some e.2)
      ∧ (files.map Prod.fst).Nodup
      ∧ (∀ name, name ∈ files.map (fun e => filepathBase e.1)
          ↔ name ∈ fileList.map filepathBase)
      ∧ (∀ name, name ∈ fileList.map filepathBase ↔ ∃ data, tree.HasFile name data)
      ∧ (∀ name, name ∈ files.map (fun e => filepathBase e.1)
          ↔ ∃ data, tree.HasFile name data)
      ∧ (∀ e ∈ files, tree.HasFile (filepathBase e.1) (some e.2)) := by
  cases hwalk : getFileAndDirList tree oldPath with
  | error e => simp [moveDir, hwalk] at hrun
  | ok fileList =>
    simp only [moveDir, hwalk, Except.ok.injEq] at hrun
    have hbase := getFileAndDirList_base tree hwf oldPath fileList hwalk
    have hnames := getFileAndDirList_names tree hwf oldPath fileList hwalk
    obtain ⟨h1, h2, h3⟩ := moveDirLoop_inv tree canWrite oldPath newPath fileList [] [] files
      (by simp) (by simp) (by simp) hrun
    rw [List.nil_append] at h1 h2
    have hname : ∀ f ∈ fileList,
        filepathBase (filepathJoin [newPath, filepathBase f]) = filepathBase f :=
      fun f hf => filepathBase_filepathJoin newPath _ (hbase f hf)
    have hset : ∀ name, name ∈ files.map (fun e => filepathBase e.1)
        ↔ name ∈ fileList.map filepathBase := by
      intro name
      constructor
      · intro hmem
        obtain ⟨e, he, hn⟩ := List.mem_map.1 hmem
        obtain ⟨f, hf, hpath, _⟩ := h1 e he
        exact List.mem_map.2 ⟨f, hf, by rw [← hn, hpath, hname f hf]⟩
      · intro hmem
        obtain ⟨f, hf, hn⟩ := List.mem_map.1 hmem
        obtain ⟨e, he, hpath⟩ := List.mem_map.1 (h2 f hf)
        exact List.mem_map.2 ⟨e, he, by rw [hpath, hname f hf, hn]⟩
    refine ⟨fileList, rfl, ?_, h3, hset, hnames, fun name => (hset name).trans (hnames name), ?_⟩
    · intro e he
      obtain ⟨f, hf, hpath, hdata⟩ := h1 e he
      exact ⟨f, hf, hpath, hbase f hf, by rw [hpath, hname f hf], hdata⟩
    · intro e he
      obtain ⟨f, hf, hpath, hdata⟩ := h1 e he
      rw [hpath, hname f hf]
      exact readFile_hasFile tree hwf oldPath f e.2 hdata

/-- C10, instance: the staged tree with `post.go`, `sub/deep/low.go`, `sub/c.go`
and `user.go` is moved to `/out/model` as the four files `post.go`, `low.go`,
`c.go`, `user.go`; `low.go`, two levels down, is a file of the tree and is
among them. -/
theorem moveDir_flattens_witness :
    exampleTree.WellFormed
      ∧ moveDir exampleTree (fun _ => true) [] "/w/model1" "/out/model"
          = .ok (none, exampleDestination)
      ∧ getFileAndDirList exampleTree "/w/model1"
          = .ok ["/w/model1/post.go", "/w/model1/sub/deep/low.go", "/w/model1/sub/c.go",
              "/w/model1/user.go"]
      ∧ exampleTree.HasFile "low.go" (some "package model // low")
      ∧ "low.go" ∈ exampleDestination.map (fun e => filepathBase e.1)
      ∧ ∃ fileList, getFileAndDirList exampleTree "/w/model1" = .ok fileList
          ∧ (∀ e ∈ exampleDestination, ∃ f ∈ fileList,
                e.1 = filepathJoin ["/out/model", filepathBase f]
                ∧ IsRealElem (filepathBase f).data
                ∧ filepathBase e.1 = filepathBase f
                ∧ readFile exampleTree "/w/model1" f = some e.2)
          ∧ (exampleDestination.map Prod.fst).Nodup
          ∧ (∀ name, name ∈ exampleDestination.map (fun e => filepathBase e.1)
              ↔ name ∈ fileList.map filepathBase)
          ∧ (∀ name, name ∈ fileList.map filepathBase
              ↔ ∃ data, exampleTree.HasFile name data)
          ∧ (∀ name, name ∈ exampleDestination.map (fun e => filepathBase e.1)
              ↔ ∃ data, exampleTree.HasFile name data)
          ∧ (∀ e ∈ exampleDestination,
              exampleTree.HasFile (filepathBase e.1) (some e.2)) :=
  have hwf : exampleTree.WellFormed :=
    ⟨by decide, by decide, ⟨by decide, ⟨by decide, trivial⟩, by decide, trivial⟩,
      by decide, trivial⟩
  ⟨hwf, rfl, rfl,
    DirTree.HasFile.afterFile (DirTree.HasFile.inDir (DirTree.HasFile.inDir
      (DirTree.HasFile.here _ _ _))),
    by decide,
    moveDir_flattens exampleTree (fun _ => true) "/w/model1" "/out/model" exampleDestination
      hwf rfl⟩

end Generator
